import Mathlib

/-!
Verification development for enums-tool.

Shallow embedding of `enums_tool.h` (carlos-urena/enums-tool) and of the loop of `main.cpp`.

Conventions of the embedding.

* A C string (`const char *` pointing at zero-terminated text) is a `List Char`: the characters
  stored from the pointer on.  The end of the list stands for the terminator, and a `NUL`
  character inside the list is a terminator too.  `p + 1` is the tail of the list, `*p` is `deref`.
  A pointer that may be null is an `Option CStr`, `none` being `nullptr`.
* `int` is `Int`; every value handled here is bounded by the length of a signature text or by
  `max_enums + 1`, so no arithmetic wraps.
* A template argument `int k` is a `Nat` (the header instantiates `k` in `0..255` only) and a value
  of the enumerated type is the `Int` that `static_cast<int>` gives for it.  `static_cast<E>` of an
  `int` is the conversion to the underlying type of `E` (`static_cast_E`).
* `std::string` is a `List Char`.
* A result of type `Option` is `none` where the C++ code has no defined result: a pointer moved
  outside its text, a string built with a negative length, a vector read outside its bounds.
-/

namespace enums_tool

namespace implementation

/-- A zero-terminated text, seen from a pointer into it. -/
abbrev CStr := List Char

/-- The terminator character, `char(0)`. -/
def NUL : Char := Char.ofNat 0

/-- Reading `*p`: the first stored character, the terminator at the end of the storage. -/
def deref (p : CStr) : Char := p.headD NUL

/-- The predefined compiler macros the header branches on. A translation unit in which none of the
three is defined does not compile (`COMPILER_STR` is undefined in `print_compiler_info`). -/
structure Predef where
  clang : Bool
  gnuc : Bool
  msc_ver : Bool
deriving DecidableEq, Repr

/-- Constant `max_enums`. -/
def max_enums : Nat := 255

/-- Function `ce_length_rec( str, cur_len )`. -/
def ce_length_rec : CStr → Int → Int
  | [], cur_len => cur_len
  | c :: str, cur_len => if c = NUL then cur_len else ce_length_rec str (cur_len + 1)

/-- Function `ce_length( str )`. -/
def ce_length (str : Option CStr) : Int :=
  match str with
  | none => 0
  | some s => ce_length_rec s 0

/-- Function `ce_rfind_rec( str_cur, sub_cur, sub_beg, str_cur_idx, str_match_idx )`. -/
def ce_rfind_rec (sub_beg : CStr) : CStr → CStr → Int → Int → Int
  | [], _, _, str_match_idx => str_match_idx
  | c :: str_next, sub_cur, str_cur_idx, str_match_idx =>
    if c = NUL ∨ deref sub_cur = NUL then
      str_match_idx
    else if c = deref sub_cur then
      ce_rfind_rec sub_beg str_next sub_cur.tail (str_cur_idx + 1)
        (if str_match_idx ≥ 0 then str_match_idx else str_cur_idx)
    else
      ce_rfind_rec sub_beg str_next sub_beg (str_cur_idx + 1) (-1)

/-- Function `ce_rfind( str, sub )`. -/
def ce_rfind (str sub : Option CStr) : Int :=
  match str, sub with
  | some s, some b => ce_rfind_rec b s b 0 0
  | _, _ => -1

/-- Both overloads of `ce_string_after( sub )`: `raw` is the text `ce_raw_pf_str<E>()`, or
`ce_raw_pf_str<E,value>()`, points to.  The result is the pointer
`raw + ce_rfind( raw, sub ) + ce_length( sub )`; it is `none` when that offset does not lie in
`0 .. ce_length( raw )`, where no text starts.  Only the resulting pointer is checked, not the
intermediate `raw + ce_rfind( raw, sub )`. -/
def ce_string_after (raw sub : CStr) : Option CStr :=
  let off := ce_rfind (some raw) (some sub) + ce_length (some sub)
  if 0 ≤ off ∧ off ≤ ce_length (some raw) then some (raw.drop off.toNat) else none

/-- Function `ce_type_name_str<E>()`, on the signature text of the type. -/
def ce_type_name_str (raw : CStr) : Option CStr :=
  ce_string_after raw "[E = ".toList

/-- The marker `ce_value_name_from_enum` searches for, by the `#if` chain of the header. -/
def value_marker (p : Predef) : CStr :=
  if p.gnuc then "value = ".toList
  else if p.clang then ", value = ".toList
  else ", value = ".toList

/-- The test `ce_is_in_range` makes on the first character `*PTR` of the value text. -/
def is_in_range_char (p : Predef) (c : Char) : Bool :=
  if p.clang then !(decide ('0' ≤ c) && decide (c ≤ '9'))
  else if p.gnuc then !(decide ('(' = c))
  else false

/-- The underlying type of an enumerated type: `bool`, or an integer type with the values
`-below .. above` (`unsigned char` is `integer 0 255`, `signed char` is `integer 128 127`). -/
inductive Underlying where
  | boolean
  | integer (below above : Nat)
deriving DecidableEq, Repr

/-- The values the underlying type holds. -/
def Underlying.represents : Underlying → Int → Prop
  | .boolean, n => n = 0 ∨ n = 1
  | .integer below above, n => -(below : Int) ≤ n ∧ n ≤ (above : Int)

instance (u : Underlying) (n : Int) : Decidable (u.represents n) := by
  cases u <;> unfold Underlying.represents <;> infer_instance

/-- Conversion of an `int` to the underlying type: a value the type holds is unchanged; another
value is reduced modulo the number of values of the type, as g++ and clang++ do (the C++11
standard leaves the resulting enumeration value unspecified); to `bool`, nonzero is 1. -/
def Underlying.convert : Underlying → Int → Int
  | .boolean, n => if n = 0 then 0 else 1
  | .integer below above, n => (n + (below : Int)) % ((below : Int) + (above : Int) + 1) - below

/-- What the compiler provides for one enumerated type `E`: the predefined macros, the signature
text of `ce_raw_pf_str<E>()`, the signature text of `ce_raw_pf_str<E, static_cast<E>(k)>()` for
each `k`, the fact that the value pointers of `ce_string_after` stay inside their texts (the
header's constant expressions are otherwise ill-formed), and the underlying type of `E`. -/
structure EnumType where
  predef : Predef
  type_sig : CStr
  value_sig : Nat → CStr
  in_bounds : ∀ k, (ce_string_after (value_sig k) (value_marker predef)).isSome = true
  underlying : Underlying

/-- The cast `static_cast<E>( n )` of an `int`, seen through `static_cast<int>`. -/
def static_cast_E (E : EnumType) (n : Int) : Int := E.underlying.convert n

/-- Function `ce_value_name_from_enum<E, static_cast<E>(k)>()`. -/
def ce_value_name_from_enum (E : EnumType) (k : Nat) : CStr :=
  (ce_string_after (E.value_sig k) (value_marker E.predef)).get (E.in_bounds k)

/-- Function `ce_is_in_range<E,k>()`. -/
def ce_is_in_range (E : EnumType) (k : Nat) : Bool :=
  is_in_range_char E.predef (deref (ce_value_name_from_enum E k))

/-- Function `ce_value_name_from_int<E,k>()`. -/
def ce_value_name_from_int (E : EnumType) (k : Nat) : CStr :=
  if ce_is_in_range E k then ce_value_name_from_enum E k else "** out of range ** ".toList

/-- The member `num_values_rec_str<E,k>::num_values` for `k = j + 1`: the specialization for
`k = 1`, and the primary template for `k ≥ 2`. -/
def num_values_rec_str (E : EnumType) : Nat → Int
  | 0 => 1
  | j + 1 => if ce_is_in_range E (j + 2) then ((j + 2 : Nat) : Int) else num_values_rec_str E j

/-- Function `ce_num_values<E>()`. -/
def ce_num_values (E : EnumType) : Int :=
  1 + num_values_rec_str E (max_enums - 1)

/-- The pointers a `ptrs_array_struct<E,k>` holds, in the order of its members: those of
`rem_array` first, then `ptr`. -/
def ptrs_array_struct (E : EnumType) : Nat → List CStr
  | 0 => [ce_value_name_from_int E 0]
  | k + 1 => ptrs_array_struct E k ++ [ce_value_name_from_int E (k + 1)]

end implementation

open implementation

/-- The constructor `std::string( ptr, count )` as the header calls it, with an `int` count: a
negative count converts to a `size_t` above `max_size()` and the constructor throws. -/
def std_string (ptr : CStr) (count : Int) : Option (List Char) :=
  if count < 0 then none else some (ptr.take count.toNat)

/-- Search of `std::string::rfind` downward from position `pos`. -/
def std_rfind_from (s sub : List Char) : Nat → Option Nat
  | 0 => if sub.isPrefixOf s then some 0 else none
  | pos + 1 => if sub.isPrefixOf (s.drop (pos + 1)) then some (pos + 1) else std_rfind_from s sub pos

/-- The library call `s.rfind( sub )`: the highest position at which `sub` starts in `s`, `none` for
`npos`. -/
def std_rfind (s sub : List Char) : Option Nat :=
  std_rfind_from s sub s.length

/-- Function `type_name_string<E>()`, on the signature text of the type. -/
def type_name_string (raw : CStr) : Option (List Char) :=
  match ce_type_name_str raw with
  | none => none
  | some str_ptr => std_string str_ptr (ce_length (some str_ptr) - 1)

/-- The body of the loop of `name_string` for one pointer: the string without its last character,
then without everything up to the last `::`. -/
def value_string_of (str_ptr : CStr) : Option (List Char) :=
  match std_string str_ptr (ce_length (some str_ptr) - 1) with
  | none => none
  | some value_string =>
    match std_rfind value_string "::".toList with
    | some pos => some (value_string.drop (pos + 2))
    | none => some value_string

/-- The static variables of `name_string<E>`. -/
structure NameCache where
  strings_vector : List (List Char)
  first_call : Bool
deriving DecidableEq, Repr

/-- The static variables before the first call: `N` empty strings, `first_call` set. -/
def NameCache.init (E : EnumType) : NameCache :=
  ⟨List.replicate (ce_num_values E).toNat [], true⟩

/-- The loop `for( unsigned i = 0 ; i < N ; i++ )` of `name_string`, with `n` iterations left to
run from index `i`: the `i`-th pointer of the static `ptrs_array_struct<E,N-1>` is read, cleaned
and stored at `strings_vector[i]`. -/
def fill_strings (E : EnumType) : Nat → Nat → List (List Char) → Option (List (List Char))
  | 0, _, strings_vector => some strings_vector
  | n + 1, i, strings_vector =>
    match (ptrs_array_struct E ((ce_num_values E).toNat - 1))[i]? with
    | none => none
    | some str_ptr =>
      match value_string_of str_ptr with
      | none => none
      | some value_string =>
        if i < strings_vector.length then
          fill_strings E n (i + 1) (strings_vector.set i value_string)
        else none

/-- The text returned for an ordinal at or above `N`. -/
def out_of_range : List Char := "** out of range **".toList

/-- Function `name_string<E>( const int k )`: the returned string and the static variables after
the call. -/
def name_string (E : EnumType) (st : NameCache) (k : Int) : Option (List Char × NameCache) :=
  if ce_num_values E ≤ k then
    some (out_of_range, st)
  else
    let filled : Option NameCache :=
      if st.first_call then
        (fill_strings E (ce_num_values E).toNat 0 st.strings_vector).map (fun v => ⟨v, false⟩)
      else some st
    match filled with
    | none => none
    | some st1 =>
      if k < 0 then none
      else (st1.strings_vector[k.toNat]?).map (fun s => (s, st1))

/-- Function `num_of_values<E>()`. -/
def num_of_values (E : EnumType) : Int := ce_num_values E

/-- Function `first<E>()`; the ordinal 0 is cast unchanged. -/
def first (_E : EnumType) : Int := 0

/-- Function `last<E>()`; the ordinal `N - 1` is taken as cast unchanged. -/
def last (E : EnumType) : Int := ce_num_values E - 1

/-- Function `next( v )`: `static_cast<E>( static_cast<int>(v) + 1 )`. -/
def next (E : EnumType) (v : Int) : Int := static_cast_E E (v + 1)

/-- Function `next_mod( v )`; `%` of C++ truncates toward zero, and the remainder, an ordinal
below `N`, is taken as cast unchanged. -/
def next_mod (E : EnumType) (v : Int) : Int := Int.tmod (v + 1) (num_of_values E)

/-- The loop `for ( v = first<E>() ; v != next(last<E>()) ; v = next(v) )`: the values of `v` for
which the body runs, in order, `none` when `fuel` tests of the condition do not end it. -/
def visit_loop (E : EnumType) : Nat → Int → List Int → Option (List Int)
  | 0, _, _ => none
  | fuel + 1, v, visited =>
    if v ≠ next E (last E) then visit_loop E fuel (next E v) (visited ++ [v]) else some visited

/-- The states of the static variables of `name_string<E>` that calls can reach: the state
before the first call, and the state a call that returns leaves behind. -/
inductive Reachable (E : EnumType) : NameCache → Prop
  | init : Reachable E (NameCache.init E)
  | call (st st1 : NameCache) (k : Int) (s : List Char) :
      Reachable E st → name_string E st k = some (s, st1) → Reachable E st1

/-! ### Spec-side notions and sample enumerated types -/

/-- The characters of a zero-terminated text: those before its first terminator. -/
def text_of (p : CStr) : List Char := p.takeWhile (fun c => decide (c ≠ NUL))

/-- Needle `sub` occurs in `s` starting at index `i`. -/
def occurs_at (s sub : List Char) (i : Nat) : Prop := sub <+: s.drop i

instance (s sub : List Char) (i : Nat) : Decidable (occurs_at s sub i) :=
  inferInstanceAs (Decidable (sub <+: s.drop i))

/-- Spec wording "everything up to and including the last `::` removed, when `::` occurs":
`r` is what `t` becomes. -/
def scope_stripped (t r : List Char) : Prop :=
  (∃ i, occurs_at t "::".toList i ∧ (∀ j, occurs_at t "::".toList j → j ≤ i) ∧ r = t.drop (i + 2))
  ∨ ((∀ j, ¬ occurs_at t "::".toList j) ∧ r = t)

/-- The macros predefined by g++. -/
def gnu : Predef := ⟨false, true, false⟩

/-- The macros predefined by clang++, which defines `__GNUC__` too. -/
def clang : Predef := ⟨true, true, false⟩

/-- Start of a value signature in the style of g++, for an enumerated type `EnumT` local to
`main` as in `main.cpp`, up to the marker. -/
def gnu_sig_head : CStr :=
  "constexpr const char* enums_tool::implementation::ce_raw_pf_str() [with E = main()::EnumT; E ".toList

/-- How the candidate `static_cast<EnumT>(k)` is spelled in that style: the enumerator when
`names` has one at `k`, a cast expression otherwise. -/
def gnu_render (names : List (Option CStr)) (k : Nat) : CStr :=
  match names[k]? with
  | some (some name) => "main()::".toList ++ name
  | _ => "(main()::EnumT)".toList ++ (Nat.repr k).toList

/-- The value signature of candidate `k` in that style. -/
def gnu_value_sig (names : List (Option CStr)) (k : Nat) : CStr :=
  gnu_sig_head ++ "value = ".toList ++ (gnu_render names k ++ "]".toList)

/-- The type signature in that style. -/
def gnu_type_sig : CStr :=
  "constexpr const char* enums_tool::implementation::ce_raw_pf_str() [with E = main()::EnumT]".toList

/-- The underlying type `unsigned int`, 32 bits wide. -/
def unsigned_int : Underlying := .integer 0 4294967295

/-- The underlying type `unsigned char`, 8 bits wide. -/
def unsigned_char : Underlying := .integer 0 255

/-- An enumerated type under g++ with the enumerators `names` (`none` marks an integer that is no
enumerator), given that the value pointers stay in bounds; without a fixed underlying type g++
takes `unsigned int` for it. -/
def gnu_enum (names : List (Option CStr))
    (h : ∀ k, (ce_string_after (gnu_value_sig names k) (value_marker gnu)).isSome = true) :
    EnumType :=
  ⟨gnu, gnu_type_sig, gnu_value_sig names, h, unsigned_int⟩

/-- The same with the fixed underlying type `unsigned char`, as in
`enum EnumT : unsigned char { ... }`. -/
def gnu_enum_uchar (names : List (Option CStr))
    (h : ∀ k, (ce_string_after (gnu_value_sig names k) (value_marker gnu)).isSome = true) :
    EnumType :=
  ⟨gnu, gnu_type_sig, gnu_value_sig names, h, unsigned_char⟩

/-- The enumerators `v0, v1, ..., v255` of a type with 256 values. -/
def full_names : List (Option CStr) :=
  (List.range 256).map (fun i => some ('v' :: (Nat.repr i).toList))

/-- The enumerators of `EnumT` in `main.cpp`. -/
def main_names : List (Option CStr) :=
  [some "cero0".toList, some "second1".toList, some "the_third123".toList,
   some "almost_done".toList, some "last_the_fourth_4".toList]

/-- The enumerators of a type with the single value `only`. -/
def single_names : List (Option CStr) := [some "only".toList]

/-- The enumerators of `enum { a = 0, c = 2 }`: no enumerator has the value 1. -/
def holed_names : List (Option CStr) := [some "a".toList, none, some "c".toList]

/-- The static variables once the loop of `name_string` has run: one cleaned string per ordinal
below `N`. -/
def populated (E : EnumType) (st : NameCache) : Prop :=
  st.first_call = false ∧ st.strings_vector.length = (ce_num_values E).toNat ∧
    ∀ j, j < (ce_num_values E).toNat →
      st.strings_vector[j]? = value_string_of (ce_value_name_from_int E j)

/-- Every text the loop of `name_string` reads has a character before its terminator. -/
def nonempty_texts (E : EnumType) : Prop :=
  ∀ i : Nat, (i : Int) < ce_num_values E → deref (ce_value_name_from_int E i) ≠ NUL

/-- Spec wording "the telltale character of the compiler family": a decimal digit for the clang
family (`__clang__` defined), an opening parenthesis for the g++ family (`__GNUC__` defined
without `__clang__`). -/
def telltale (p : Predef) (c : Char) : Prop :=
  (p.clang = true ∧ c.isDigit = true) ∨ (p.clang = false ∧ p.gnuc = true ∧ c = '(')

/-- The last character of the signature text is not in the marker, or it occurs nowhere else in
the signature.  So it is for the signatures of g++ and clang++ with the markers of the header:
they end with the bracket that closes the list of template arguments, and no marker has one. -/
def final_char_fresh (sig marker : CStr) : Prop :=
  ∀ c, (text_of sig).getLast? = some c → c ∉ text_of marker ∨ c ∉ (text_of sig).dropLast

/-- The static variables of `name_string<EnumT>` for `main.cpp` once populated. -/
def main_cache : NameCache :=
  ⟨["cero0".toList, "second1".toList, "the_third123".toList, "almost_done".toList,
    "last_the_fourth_4".toList], false⟩

/-! ## Lemmas on the string primitives -/

theorem ce_length_rec_eq (s : CStr) (n : Int) :
    ce_length_rec s n = n + ((s.takeWhile (fun c => decide (c ≠ NUL))).length : Int) := by
  induction s generalizing n with
  | nil => simp [ce_length_rec]
  | cons c t ih =>
    by_cases hc : c = NUL
    · simp [ce_length_rec, hc]
    · simp only [ce_length_rec, hc, if_false, ih, List.takeWhile_cons, ne_eq, not_false_eq_true,
        decide_True, if_true, List.length_cons]
      push_cast
      ring

theorem ce_length_rec_append (pre rest : CStr) (n : Int) (hpre : ∀ c ∈ pre, c ≠ NUL) :
    ce_length_rec (pre ++ rest) n = ce_length_rec rest (n + pre.length) := by
  induction pre generalizing n with
  | nil => simp
  | cons c t ih =>
    have hc : c ≠ NUL := hpre c (List.mem_cons_self _ _)
    have ht : ∀ d ∈ t, d ≠ NUL := fun d hd => hpre d (List.mem_cons_of_mem _ hd)
    simp only [List.cons_append, ce_length_rec, hc, if_false, List.append_eq, List.length_cons]
    rw [ih _ ht]
    congr 1
    push_cast
    ring

theorem ce_length_rec_ge (s : CStr) (n : Int) : n ≤ ce_length_rec s n := by
  rw [ce_length_rec_eq]
  omega

theorem ce_rfind_rec_sub_nil (b s : CStr) (i m : Int) : ce_rfind_rec b s [] i m = m := by
  cases s <;> simp [ce_rfind_rec, deref]

theorem ce_rfind_rec_skip (h : Char) (t pre rest : CStr) (i m : Int) (hh : h ≠ NUL)
    (hpre : ∀ c ∈ pre, c ≠ NUL ∧ c ≠ h) (hne : pre ≠ []) :
    ce_rfind_rec (h :: t) (pre ++ rest) (h :: t) i m
      = ce_rfind_rec (h :: t) rest (h :: t) (i + pre.length) (-1) := by
  induction pre generalizing i m with
  | nil => exact absurd rfl hne
  | cons c u ih =>
    have hc := hpre c (List.mem_cons_self _ _)
    have hu : ∀ d ∈ u, d ≠ NUL ∧ d ≠ h := fun d hd => hpre d (List.mem_cons_of_mem _ hd)
    simp only [List.cons_append, ce_rfind_rec, deref, List.headD_cons, hc.1, hh, or_self,
      if_false, hc.2, List.append_eq]
    by_cases hu0 : u = []
    · subst hu0
      simp
    · rw [ih _ _ hu hu0]
      congr 1
      simp only [List.length_cons]
      push_cast
      omega

theorem ce_rfind_rec_match (b sub rest : CStr) (i m : Int) (hsub : ∀ c ∈ sub, c ≠ NUL)
    (hne : sub ≠ []) (hi : 0 ≤ i) :
    ce_rfind_rec b (sub ++ rest) sub i m = if m ≥ 0 then m else i := by
  induction sub generalizing i m with
  | nil => exact absurd rfl hne
  | cons c u ih =>
    have hc : c ≠ NUL := hsub c (List.mem_cons_self _ _)
    have hu : ∀ d ∈ u, d ≠ NUL := fun d hd => hsub d (List.mem_cons_of_mem _ hd)
    simp only [List.cons_append, ce_rfind_rec, deref, List.headD_cons, hc, or_self, if_false,
      if_true, List.tail_cons, List.append_eq]
    by_cases hu0 : u = []
    · subst hu0
      simp [ce_rfind_rec_sub_nil]
    · rw [ih _ _ hu hu0 (by omega)]
      by_cases hm : m ≥ 0
      · simp [hm]
      · simp [hm, hi]

/-- A marker whose first character occurs nowhere before it is found where it starts. -/
theorem ce_rfind_fresh (h : Char) (t pre rest : CStr) (hsub : ∀ c ∈ h :: t, c ≠ NUL)
    (hpre : ∀ c ∈ pre, c ≠ NUL ∧ c ≠ h) :
    ce_rfind (some (pre ++ (h :: t) ++ rest)) (some (h :: t)) = pre.length := by
  have hh : h ≠ NUL := hsub h (List.mem_cons_self _ _)
  simp only [ce_rfind]
  by_cases hp : pre = []
  · subst hp
    have := ce_rfind_rec_match (h :: t) (h :: t) rest 0 0 hsub (by simp) (le_refl _)
    simpa using this
  · rw [List.append_assoc, ce_rfind_rec_skip h t pre _ 0 0 hh hpre hp,
      ce_rfind_rec_match (h :: t) (h :: t) rest _ _ hsub (by simp) (by omega)]
    simp

theorem ce_string_after_fresh (h : Char) (t pre rest : CStr) (hsub : ∀ c ∈ h :: t, c ≠ NUL)
    (hpre : ∀ c ∈ pre, c ≠ NUL ∧ c ≠ h) :
    ce_string_after (pre ++ (h :: t) ++ rest) (h :: t) = some rest := by
  have hlen : ce_length (some (h :: t)) = ((h :: t).length : Int) := by
    have := ce_length_rec_append (h :: t) [] 0 hsub
    simpa [ce_length, ce_length_rec] using this
  have hraw : ((pre ++ (h :: t)).length : Int) ≤ ce_length (some (pre ++ (h :: t) ++ rest)) := by
    have hall : ∀ c ∈ pre ++ (h :: t), c ≠ NUL := by
      intro c hc
      rcases List.mem_append.1 hc with hc | hc
      · exact (hpre c hc).1
      · exact hsub c hc
    have := ce_length_rec_append (pre ++ (h :: t)) rest 0 hall
    simp only [ce_length, this]
    have := ce_length_rec_ge rest (0 + (pre ++ (h :: t)).length)
    omega
  simp only [ce_string_after, ce_rfind_fresh h t pre rest hsub hpre, hlen]
  have e : ((pre.length : Int) + ((h :: t).length : Int)).toNat = (pre ++ (h :: t)).length := by
    simp only [List.length_append]
    omega
  rw [if_pos, e, List.drop_left]
  simp only [List.length_append] at hraw
  constructor
  · omega
  · push_cast at hraw ⊢
    omega

/-! ## The sample types -/

set_option maxRecDepth 100000 in
theorem gnu_sig_head_fresh : ∀ c ∈ gnu_sig_head, c ≠ NUL ∧ c ≠ 'v' := by decide

theorem gnu_string_after (names : List (Option CStr)) (k : Nat) :
    ce_string_after (gnu_value_sig names k) (value_marker gnu)
      = some (gnu_render names k ++ "]".toList) :=
  ce_string_after_fresh 'v' "alue = ".toList gnu_sig_head _ (by decide) gnu_sig_head_fresh

theorem gnu_in_bounds (names : List (Option CStr)) (k : Nat) :
    (ce_string_after (gnu_value_sig names k) (value_marker gnu)).isSome = true := by
  rw [gnu_string_after]
  rfl

theorem gnu_value_name (names : List (Option CStr)) (h) (k : Nat) :
    ce_value_name_from_enum (gnu_enum names h) k = gnu_render names k ++ "]".toList := by
  apply Option.some.inj
  rw [ce_value_name_from_enum, Option.some_get]
  exact gnu_string_after names k

theorem gnu_is_in_range (names : List (Option CStr)) (h) (k : Nat) :
    ce_is_in_range (gnu_enum names h) k = (names[k]?).join.isSome := by
  rw [ce_is_in_range, gnu_value_name]
  simp only [gnu_render, gnu_enum]
  rcases hk : names[k]? with _ | (_ | name) <;> simp [is_in_range_char, gnu, deref]

/-! ## The count of values -/

theorem num_values_rec_str_bounds (E : EnumType) (j : Nat) :
    1 ≤ num_values_rec_str E j ∧ num_values_rec_str E j ≤ (j : Int) + 1 := by
  induction j with
  | zero => simp [num_values_rec_str]
  | succ j ih =>
    simp only [num_values_rec_str]
    split
    · push_cast
      omega
    · push_cast
      omega

theorem ce_num_values_bounds (E : EnumType) : 2 ≤ ce_num_values E ∧ ce_num_values E ≤ 256 := by
  have := num_values_rec_str_bounds E (max_enums - 1)
  simp only [ce_num_values, max_enums] at *
  omega

/-- Above the highest candidate classified valid the descent passes; it stops there. -/
theorem num_values_rec_str_top (E : EnumType) (M : Nat) (hM : 2 ≤ M)
    (htop : ce_is_in_range E M = true)
    (habove : ∀ k, M < k → k ≤ max_enums → ce_is_in_range E k = false) (j : Nat)
    (hj : M ≤ j + 1) (hj2 : j + 1 ≤ max_enums) : num_values_rec_str E j = M := by
  induction j with
  | zero => omega
  | succ j ih =>
    simp only [num_values_rec_str]
    by_cases h : M = j + 2
    · subst h
      simp [htop]
    · rw [habove (j + 2) (by omega) (by omega)]
      simp only [Bool.false_eq_true, if_false]
      exact ih (by omega) (by omega)

/-- With no candidate in `2..j+1` classified valid the descent reaches the specialization. -/
theorem num_values_rec_str_floor (E : EnumType) (j : Nat)
    (hnone : ∀ k, 2 ≤ k → k ≤ j + 1 → ce_is_in_range E k = false) :
    num_values_rec_str E j = 1 := by
  induction j with
  | zero => rfl
  | succ j ih =>
    simp only [num_values_rec_str]
    rw [hnone (j + 2) (by omega) (by omega)]
    simp only [Bool.false_eq_true, if_false]
    exact ih (fun k h2 hk => hnone k h2 (by omega))

/-- The count is right for every type with two or more consecutive values. -/
theorem ce_num_values_consecutive (E : EnumType) (N : Nat) (h2 : 2 ≤ N) (h256 : N ≤ 256)
    (hvalid : ∀ k, ce_is_in_range E k = decide (k < N)) : ce_num_values E = N := by
  by_cases h : N = 2
  · subst h
    rw [ce_num_values, num_values_rec_str_floor]
    · rfl
    · intro k hk _
      rw [hvalid]
      simp
      omega
  · rw [ce_num_values, num_values_rec_str_top E (N - 1) (by omega)]
    · omega
    · rw [hvalid]
      simp
      omega
    · intro k hk _
      rw [hvalid]
      simp
      omega
    · simp only [max_enums]
      omega
    · simp only [max_enums]
      omega

/-! ## The name cache -/

theorem ptrs_array_struct_length (E : EnumType) (k : Nat) :
    (ptrs_array_struct E k).length = k + 1 := by
  induction k with
  | zero => rfl
  | succ k ih => simp [ptrs_array_struct, ih]

/-- The `i`-th pointer of the array is the text of ordinal `i`. -/
theorem ptrs_array_struct_get (E : EnumType) (k i : Nat) (hi : i ≤ k) :
    (ptrs_array_struct E k)[i]? = some (ce_value_name_from_int E i) := by
  induction k with
  | zero =>
    have : i = 0 := by omega
    subst this
    rfl
  | succ k ih =>
    simp only [ptrs_array_struct]
    by_cases h : i ≤ k
    · rw [List.getElem?_append_left (by rw [ptrs_array_struct_length]; omega)]
      exact ih h
    · have : i = k + 1 := by omega
      subst this
      rw [List.getElem?_append_right (by rw [ptrs_array_struct_length])]
      simp [ptrs_array_struct_length]

theorem ce_length_pos (p : CStr) (h : deref p ≠ NUL) : 1 ≤ ce_length (some p) := by
  cases p with
  | nil => exact absurd rfl h
  | cons c t =>
    have hc : c ≠ NUL := h
    simp only [ce_length, ce_length_rec, hc, if_false]
    exact ce_length_rec_ge t (0 + 1)

theorem value_string_of_isSome (p : CStr) (h : deref p ≠ NUL) :
    (value_string_of p).isSome = true := by
  have := ce_length_pos p h
  simp only [value_string_of, std_string]
  rw [if_neg (by omega)]
  simp only
  split <;> rfl

theorem fill_strings_sound (E : EnumType) (n : Nat) : ∀ (i : Nat) (sv sv1 : List (List Char)),
    i + n ≤ (ce_num_values E).toNat → fill_strings E n i sv = some sv1 →
    sv1.length = sv.length ∧
    (∀ j, i ≤ j → j < i + n → sv1[j]? = value_string_of (ce_value_name_from_int E j)) ∧
    (∀ j, (j < i ∨ i + n ≤ j) → sv1[j]? = sv[j]?) := by
  induction n with
  | zero =>
    intro i sv sv1 _ h
    simp only [fill_strings, Option.some.injEq] at h
    subst h
    exact ⟨rfl, fun j h1 h2 => by omega, fun _ _ => rfl⟩
  | succ n ih =>
    intro i sv sv1 hN h
    simp only [fill_strings] at h
    rw [ptrs_array_struct_get E _ i (by omega)] at h
    simp only at h
    cases hv : value_string_of (ce_value_name_from_int E i) with
    | none => simp [hv] at h
    | some vs =>
      simp only [hv] at h
      by_cases hlen : i < sv.length
      · rw [if_pos hlen] at h
        obtain ⟨h1, h2, h3⟩ := ih (i + 1) (sv.set i vs) sv1 (by omega) h
        refine ⟨by simpa using h1, ?_, ?_⟩
        · intro j hj1 hj2
          by_cases hji : j = i
          · subst hji
            rw [h3 j (Or.inl (by omega)), hv]
            simp [List.getElem?_set_self, hlen]
          · exact h2 j (by omega) (by omega)
        · intro j hj
          rw [h3 j (by omega)]
          rw [List.getElem?_set_ne (by omega)]
      · rw [if_neg hlen] at h
        exact absurd h (by simp)

theorem fill_strings_total (E : EnumType) (n : Nat) : ∀ (i : Nat) (sv : List (List Char)),
    i + n ≤ (ce_num_values E).toNat → i + n ≤ sv.length →
    (∀ j, i ≤ j → j < i + n → (value_string_of (ce_value_name_from_int E j)).isSome = true) →
    ∃ sv1, fill_strings E n i sv = some sv1 := by
  induction n with
  | zero => intro i sv _ _ _; exact ⟨sv, rfl⟩
  | succ n ih =>
    intro i sv hN hlen hsome
    simp only [fill_strings]
    rw [ptrs_array_struct_get E _ i (by omega)]
    simp only
    obtain ⟨vs, hv⟩ := Option.isSome_iff_exists.1 (hsome i (le_refl _) (by omega))
    simp only [hv]
    rw [if_pos (by omega)]
    exact ih (i + 1) (sv.set i vs) (by omega) (by simp; omega)
      (fun j h1 h2 => hsome j (by omega) (by omega))

theorem name_string_out_of_range (E : EnumType) (st : NameCache) (k : Int)
    (h : ce_num_values E ≤ k) : name_string E st k = some (out_of_range, st) := by
  simp only [name_string]
  rw [if_pos h]

theorem name_string_populated (E : EnumType) (st : NameCache) (k : Int) (hst : populated E st)
    (h0 : 0 ≤ k) (hN : k < ce_num_values E) :
    ∃ s, name_string E st k = some (s, st) ∧
      value_string_of (ce_value_name_from_int E k.toNat) = some s := by
  obtain ⟨hfc, hlen, hget⟩ := hst
  have hk : k.toNat < st.strings_vector.length := by omega
  refine ⟨st.strings_vector[k.toNat], ?_, ?_⟩
  · simp only [name_string, hfc]
    rw [if_neg (by omega)]
    simp only [Bool.false_eq_true, if_false]
    rw [if_neg (by omega), List.getElem?_eq_getElem hk]
    rfl
  · rw [← hget k.toNat (by omega), List.getElem?_eq_getElem hk]

/-- A first call that returns has run the loop to its end. -/
theorem name_string_init_sound (E : EnumType) (k : Int) (s : List Char) (st1 : NameCache)
    (hN : ¬ ce_num_values E ≤ k) (hcall : name_string E (NameCache.init E) k = some (s, st1)) :
    populated E st1 ∧ st1.strings_vector[k.toNat]? = some s := by
  simp only [name_string] at hcall
  rw [if_neg hN] at hcall
  simp only [NameCache.init, if_true] at hcall
  cases hfill : fill_strings E (ce_num_values E).toNat 0
      (List.replicate (ce_num_values E).toNat []) with
  | none => simp [hfill] at hcall
  | some sv1 =>
    simp only [hfill, Option.map_some'] at hcall
    obtain ⟨h1, h2, _⟩ := fill_strings_sound E _ 0 _ sv1 (by omega) hfill
    have hpop : populated E ⟨sv1, false⟩ :=
      ⟨rfl, by simpa using h1, fun j hj => h2 j (Nat.zero_le _) (by omega)⟩
    by_cases hneg : k < 0
    · simp [hneg] at hcall
    · rw [if_neg hneg] at hcall
      cases hget : sv1[k.toNat]? with
      | none => simp [hget] at hcall
      | some x =>
        simp only [hget, Option.map_some', Option.some.injEq, Prod.mk.injEq] at hcall
        rw [← hcall.2, ← hcall.1]
        exact ⟨hpop, hget⟩

theorem name_string_init (E : EnumType) (k : Int) (hne : nonempty_texts E)
    (h0 : 0 ≤ k) (hN : k < ce_num_values E) :
    ∃ s st1, name_string E (NameCache.init E) k = some (s, st1) ∧ populated E st1 ∧
      value_string_of (ce_value_name_from_int E k.toNat) = some s := by
  obtain ⟨sv1, hfill⟩ := fill_strings_total E (ce_num_values E).toNat 0
    (List.replicate (ce_num_values E).toNat []) (by omega) (by simp)
    (fun j _ hj => value_string_of_isSome _ (hne j (by omega)))
  obtain ⟨h1, h2, _⟩ := fill_strings_sound E _ 0 _ sv1 (by omega) hfill
  have hpop : populated E ⟨sv1, false⟩ :=
    ⟨rfl, by simpa using h1, fun j hj => h2 j (Nat.zero_le _) (by omega)⟩
  obtain ⟨s, hs, hv⟩ := name_string_populated E ⟨sv1, false⟩ k hpop h0 hN
  refine ⟨s, ⟨sv1, false⟩, ?_, hpop, hv⟩
  simp only [name_string] at hs ⊢
  rw [if_neg (by omega)] at hs ⊢
  simp only [NameCache.init, if_true, hfill, Option.map_some']
  simpa using hs

/-- A state that calls can reach is the initial one or a populated one. -/
theorem reachable_cases (E : EnumType) (st : NameCache) (h : Reachable E st) :
    st = NameCache.init E ∨ populated E st := by
  induction h with
  | init => exact Or.inl rfl
  | call st st1 k s _ hcall ih =>
    by_cases hk : ce_num_values E ≤ k
    · rw [name_string_out_of_range E st k hk] at hcall
      simp only [Option.some.injEq, Prod.mk.injEq] at hcall
      rw [← hcall.2]
      exact ih
    · rcases ih with ih | ih
      · subst ih
        exact Or.inr (name_string_init_sound E k s st1 hk hcall).1
      · by_cases hneg : k < 0
        · simp [name_string, hk, ih.1, hneg] at hcall
        · obtain ⟨s2, h2, _⟩ := name_string_populated E st k ih (by omega) (by omega)
          rw [h2] at hcall
          simp only [Option.some.injEq, Prod.mk.injEq] at hcall
          rw [← hcall.2]
          exact Or.inr ih

/-- A call for an ordinal below `N` that returns, in any reachable state: it returns the
cleaned text of that ordinal and leaves the cache populated. -/
theorem name_string_sound (E : EnumType) (st st1 : NameCache) (k : Int) (s : List Char)
    (hst : Reachable E st) (h0 : 0 ≤ k) (hN : k < ce_num_values E)
    (hcall : name_string E st k = some (s, st1)) :
    populated E st1 ∧ value_string_of (ce_value_name_from_int E k.toNat) = some s := by
  rcases reachable_cases E st hst with h | h
  · subst h
    obtain ⟨hpop, hget⟩ := name_string_init_sound E k s st1 (by omega) hcall
    exact ⟨hpop, by rw [← hpop.2.2 k.toNat (by have := hpop.2.1; omega), hget]⟩
  · obtain ⟨s2, h2, h3⟩ := name_string_populated E st k h h0 hN
    rw [h2] at hcall
    simp only [Option.some.injEq, Prod.mk.injEq] at hcall
    rw [← hcall.1, ← hcall.2]
    exact ⟨h, h3⟩

/-- A call for an ordinal below `N` returns, in any reachable state, when no text is empty. -/
theorem name_string_total (E : EnumType) (st : NameCache) (k : Int) (hst : Reachable E st)
    (hne : nonempty_texts E) (h0 : 0 ≤ k) (hN : k < ce_num_values E) :
    ∃ s st1, name_string E st k = some (s, st1) := by
  rcases reachable_cases E st hst with h | h
  · subst h
    obtain ⟨s, st1, h1, _, _⟩ := name_string_init E k hne h0 hN
    exact ⟨s, st1, h1⟩
  · obtain ⟨s, hs, _⟩ := name_string_populated E st k h h0 hN
    exact ⟨s, st, hs⟩

/-! ## Facts on the sample types -/

theorem gnu_nonempty_texts (names : List (Option CStr)) (h) :
    nonempty_texts (gnu_enum names h) := by
  intro i _
  rw [ce_value_name_from_int, gnu_is_in_range, gnu_value_name]
  simp only [gnu_render]
  rcases hk : names[i]? with _ | (_ | name) <;> simp [deref] <;> decide

theorem gnu_value_name_from_int (names : List (Option CStr)) (h) (k : Nat) :
    ce_value_name_from_int (gnu_enum names h) k
      = if (names[k]?).join.isSome then gnu_render names k ++ "]".toList
        else "** out of range ** ".toList := by
  rw [ce_value_name_from_int, gnu_is_in_range, gnu_value_name]

theorem main_is_in_range (h) (k : Nat) :
    ce_is_in_range (gnu_enum main_names h) k = decide (k < 5) := by
  rw [gnu_is_in_range]
  rcases k with _ | _ | _ | _ | _ | k <;> simp [main_names]

theorem main_num_of_values (h) : num_of_values (gnu_enum main_names h) = 5 :=
  ce_num_values_consecutive _ 5 (by decide) (by decide) (main_is_in_range h)

theorem single_is_in_range (h) (k : Nat) :
    ce_is_in_range (gnu_enum single_names h) k = decide (k < 1) := by
  rw [gnu_is_in_range]
  rcases k with _ | k <;> simp [single_names]

theorem single_num_of_values (h) : num_of_values (gnu_enum single_names h) = 2 := by
  rw [num_of_values, ce_num_values, num_values_rec_str_floor]
  · rfl
  · intro k hk _
    rw [single_is_in_range]
    simp
    omega

theorem holed_is_in_range (h) (k : Nat) :
    ce_is_in_range (gnu_enum holed_names h) k = decide (k = 0 ∨ k = 2) := by
  rw [gnu_is_in_range]
  rcases k with _ | _ | _ | k <;> simp [holed_names]

theorem holed_num_of_values (h) : num_of_values (gnu_enum holed_names h) = 3 := by
  rw [num_of_values, ce_num_values, num_values_rec_str_top _ 2 (le_refl _)]
  · rfl
  · rw [holed_is_in_range]
    rfl
  · intro k hk _
    rw [holed_is_in_range]
    simp
    omega
  · simp [max_enums]
  · simp [max_enums]

/-! ## Cleaning a value text -/

theorem std_rfind_from_some (s sub : List Char) (pos i : Nat)
    (h : std_rfind_from s sub pos = some i) :
    i ≤ pos ∧ occurs_at s sub i ∧ ∀ j, i < j → j ≤ pos → ¬ occurs_at s sub j := by
  induction pos with
  | zero =>
    simp only [std_rfind_from] at h
    split at h
    · rename_i hp
      simp only [Option.some.injEq] at h
      subst h
      exact ⟨le_refl _, by simpa [occurs_at] using hp, fun j h1 h2 => by omega⟩
    · exact absurd h (by simp)
  | succ pos ih =>
    simp only [std_rfind_from] at h
    split at h
    · rename_i hp
      simp only [Option.some.injEq] at h
      subst h
      exact ⟨le_refl _, by simpa [occurs_at] using hp, fun j h1 h2 => by omega⟩
    · rename_i hp
      obtain ⟨h1, h2, h3⟩ := ih h
      refine ⟨by omega, h2, ?_⟩
      intro j hj1 hj2
      by_cases hj : j = pos + 1
      · subst hj
        simpa [occurs_at] using hp
      · exact h3 j hj1 (by omega)

theorem std_rfind_from_none (s sub : List Char) (pos : Nat)
    (h : std_rfind_from s sub pos = none) : ∀ j, j ≤ pos → ¬ occurs_at s sub j := by
  induction pos with
  | zero =>
    simp only [std_rfind_from] at h
    split at h
    · exact absurd h (by simp)
    · rename_i hp
      intro j hj
      have : j = 0 := by omega
      subst this
      simpa [occurs_at] using hp
  | succ pos ih =>
    simp only [std_rfind_from] at h
    split at h
    · exact absurd h (by simp)
    · rename_i hp
      intro j hj
      by_cases hj1 : j = pos + 1
      · subst hj1
        simpa [occurs_at] using hp
      · exact ih h j (by omega)

theorem occurs_at_bound (s sub : List Char) (j : Nat) (hsub : sub ≠ [])
    (h : occurs_at s sub j) : j + sub.length ≤ s.length := by
  have h1 := List.IsPrefix.length_le h
  have h2 : 0 < sub.length := List.length_pos.2 hsub
  simp only [List.length_drop] at h1
  omega

theorem not_occurs_at_beyond (s sub : List Char) (j : Nat) (hsub : sub ≠ [])
    (hj : s.length < j + sub.length) : ¬ occurs_at s sub j := by
  intro h
  have := occurs_at_bound s sub j hsub h
  omega

theorem std_string_text (p : CStr) (vs : List Char)
    (h : std_string p (ce_length (some p) - 1) = some vs) : vs = (text_of p).dropLast := by
  simp only [std_string] at h
  split at h
  · exact absurd h (by simp)
  · simp only [Option.some.injEq] at h
    subst h
    have hlen : ce_length (some p) = ((text_of p).length : Int) := by
      simp [ce_length, ce_length_rec_eq, text_of]
    rw [hlen, List.dropLast_eq_take]
    have e : (((text_of p).length : Int) - 1).toNat = (text_of p).length - 1 := by omega
    rw [e]
    have key := @List.take_append_of_le_length Char (text_of p)
      (p.dropWhile (fun c => decide (c ≠ NUL))) ((text_of p).length - 1) (by omega)
    have hp : text_of p ++ p.dropWhile (fun c => decide (c ≠ NUL)) = p :=
      List.takeWhile_append_dropWhile _ p
    rw [hp] at key
    exact key

/-- The loop body of `name_string` does what the spec words say. -/
theorem value_string_of_spec (p : CStr) (s : List Char) (h : value_string_of p = some s) :
    scope_stripped (text_of p).dropLast s := by
  simp only [value_string_of] at h
  cases hvs : std_string p (ce_length (some p) - 1) with
  | none => simp [hvs] at h
  | some vs =>
    have hvs1 := std_string_text p vs hvs
    simp only [hvs] at h
    rw [← hvs1]
    cases hr : std_rfind vs "::".toList with
    | some pos =>
      simp only [hr, Option.some.injEq] at h
      obtain ⟨_, h2, h3⟩ := std_rfind_from_some vs _ _ pos hr
      refine Or.inl ⟨pos, h2, ?_, h.symm⟩
      intro j hj
      by_contra hlt
      by_cases hjl : j ≤ vs.length
      · exact h3 j (by omega) hjl hj
      · exact not_occurs_at_beyond vs _ j (by decide) (by omega) hj
    | none =>
      simp only [hr, Option.some.injEq] at h
      refine Or.inr ⟨?_, h.symm⟩
      intro j hj
      by_cases hjl : j ≤ vs.length
      · exact std_rfind_from_none vs _ _ hr j hjl hj
      · exact not_occurs_at_beyond vs _ j (by decide) (by omega) hj

theorem scope_stripped_length (t r : List Char) (h : scope_stripped t r) :
    r.length ≤ t.length := by
  rcases h with ⟨i, _, _, h⟩ | ⟨_, h⟩
  · subst h
    simp
  · subst h
    exact le_refl _

/-! ## Further lemmas used by the claims -/

theorem type_name_string_fresh (pre sp : List Char) (hpre : ∀ c ∈ pre, c ≠ NUL ∧ c ≠ '[')
    (hsp : ∀ c ∈ sp, c ≠ NUL) :
    type_name_string (pre ++ "[E = ".toList ++ (sp ++ "]".toList)) = some sp := by
  have h1 : ce_type_name_str (pre ++ "[E = ".toList ++ (sp ++ "]".toList))
      = some (sp ++ "]".toList) :=
    ce_string_after_fresh '[' "E = ".toList pre _ (by decide) hpre
  have hall : ∀ c ∈ sp ++ "]".toList, c ≠ NUL := by
    intro c hc
    rcases List.mem_append.1 hc with hc | hc
    · exact hsp c hc
    · have : c = ']' := by simpa using hc
      subst this
      decide
  have h2 : ce_length (some (sp ++ "]".toList)) = (sp.length : Int) + 1 := by
    have := ce_length_rec_append (sp ++ "]".toList) [] 0 hall
    simp only [List.append_nil] at this
    simp only [ce_length, this, ce_length_rec]
    simp
  simp only [type_name_string, h1, h2, std_string]
  rw [if_neg (by omega)]
  have e : ((sp.length : Int) + 1 - 1).toNat = sp.length := by omega
  rw [e, List.take_left]

theorem convert_of_represents (u : Underlying) (n : Int) (h : u.represents n) :
    u.convert n = n := by
  cases u with
  | boolean =>
    simp only [Underlying.represents] at h
    simp only [Underlying.convert]
    rcases h with h | h <;> simp [h]
  | integer below above =>
    simp only [Underlying.represents] at h
    simp only [Underlying.convert]
    rw [Int.emod_eq_of_lt (by omega) (by omega)]
    omega

theorem represents_between (u : Underlying) (n m : Int) (h0 : 0 ≤ m) (hm : m ≤ n)
    (h : u.represents n) : u.represents m := by
  cases u with
  | boolean =>
    simp only [Underlying.represents] at h ⊢
    omega
  | integer below above =>
    simp only [Underlying.represents] at h ⊢
    omega

/-- Where the underlying type holds `N`, `next` adds 1 to every ordinal below `N`. -/
theorem next_of_represents (E : EnumType) (v : Int) (h0 : 0 ≤ v) (hN : v + 1 ≤ ce_num_values E)
    (hrep : E.underlying.represents (ce_num_values E)) : next E v = v + 1 := by
  simp only [next, static_cast_E]
  exact convert_of_represents _ _ (represents_between _ _ _ (by omega) hN hrep)

theorem visit_loop_from (E : EnumType) (hrep : E.underlying.represents (ce_num_values E))
    (n : Nat) : ∀ (extra : Nat) (v : Int) (visited : List Int),
    0 ≤ v → v + n = ce_num_values E →
    visit_loop E (n + 1 + extra) v visited
      = some (visited ++ (List.range n).map (fun (i : Nat) => v + (i : Int))) := by
  have hb := ce_num_values_bounds E
  have hlast : next E (last E) = ce_num_values E := by
    rw [next_of_represents E (last E) (by simp only [last]; omega) (by simp only [last]; omega)
      hrep]
    simp only [last]
    omega
  induction n with
  | zero =>
    intro extra v visited _ hv
    have hstop : v = next E (last E) := by
      rw [hlast]
      omega
    rw [show 0 + 1 + extra = extra + 1 by omega]
    simp [visit_loop, hstop]
  | succ n ih =>
    intro extra v visited hv0 hv
    have hgo : v ≠ next E (last E) := by
      rw [hlast]
      omega
    have hnext : next E v = v + 1 := next_of_represents E v hv0 (by omega) hrep
    rw [show n + 1 + 1 + extra = (n + 1 + extra) + 1 by omega]
    simp only [visit_loop, hgo, ne_eq, not_false_eq_true, if_true]
    rw [hnext, ih extra (v + 1) (visited ++ [v]) (by omega) (by omega)]
    simp only [List.range_succ_eq_map, List.map_cons, List.map_map, List.append_assoc,
      List.singleton_append]
    congr 2
    simp only [Int.add_zero, Nat.cast_zero, List.cons.injEq, true_and]
    apply List.map_congr_left
    intro i _
    simp only [Function.comp, Nat.succ_eq_add_one]
    push_cast
    ring

set_option maxRecDepth 100000 in
theorem main_name_string (k : Nat) (name : CStr) (hk : main_names[k]? = some (some name))
    (hname : value_string_of ("main()::".toList ++ name ++ "]".toList) = some name) :
    ∃ st1, name_string (gnu_enum main_names (gnu_in_bounds main_names))
      (NameCache.init (gnu_enum main_names (gnu_in_bounds main_names))) (k : Int)
      = some (name, st1) := by
  have hlt : k < 5 := by
    rcases k with _ | _ | _ | _ | _ | k
    all_goals first | omega | (exfalso; simp [main_names] at hk)
  obtain ⟨s, st1, h1, _, h3⟩ := name_string_init _ (k : Int)
    (gnu_nonempty_texts main_names (gnu_in_bounds main_names))
    (by omega) (by rw [← num_of_values, main_num_of_values]; omega)
  rw [Int.toNat_ofNat, gnu_value_name_from_int, hk] at h3
  simp only [Option.join, Option.bind, id, Option.isSome_some, if_true, gnu_render, hk] at h3
  rw [hname] at h3
  rw [Option.some.inj h3]
  exact ⟨st1, h1⟩

/-- For the sample types: the first call for an ordinal below `N` that is no enumerator returns
the out-of-range text. -/
theorem gnu_name_string_invalid (names : List (Option CStr)) (k : Nat)
    (hk : (k : Int) < ce_num_values (gnu_enum names (gnu_in_bounds names)))
    (hinv : (names[k]?).join.isSome = false) :
    ∃ st1, name_string (gnu_enum names (gnu_in_bounds names))
      (NameCache.init (gnu_enum names (gnu_in_bounds names))) (k : Int)
      = some ("** out of range **".toList, st1) := by
  obtain ⟨s, st1, h1, _, h3⟩ := name_string_init _ (k : Int)
    (gnu_nonempty_texts names (gnu_in_bounds names)) (by omega) hk
  have h4 : value_string_of "** out of range ** ".toList = some "** out of range **".toList := by
    decide
  rw [Int.toNat_ofNat, gnu_value_name_from_int, hinv] at h3
  simp only [Bool.false_eq_true, if_false] at h3
  rw [h4] at h3
  rw [← Option.some.inj h3] at h1
  exact ⟨st1, h1⟩

/-- The scenario of `main.cpp`: ordinal 0 is named `cero0`. -/
theorem main_name_string_first :
    ∃ st1, name_string (gnu_enum main_names (gnu_in_bounds main_names))
      (NameCache.init (gnu_enum main_names (gnu_in_bounds main_names))) 0
      = some ("cero0".toList, st1) :=
  main_name_string 0 "cero0".toList (by decide) (by decide)

/-- The scenario of `main.cpp`: ordinal 4 is named `last_the_fourth_4`. -/
theorem main_name_string_last :
    ∃ st1, name_string (gnu_enum main_names (gnu_in_bounds main_names))
      (NameCache.init (gnu_enum main_names (gnu_in_bounds main_names))) 4
      = some ("last_the_fourth_4".toList, st1) :=
  main_name_string 4 "last_the_fourth_4".toList (by decide) (by decide)

/-! ## Lemmas for the string claims -/

theorem text_of_no_nul (s : CStr) : ∀ c ∈ text_of s, c ≠ NUL := by
  intro c hc
  have := List.mem_takeWhile_imp hc
  simpa using this

theorem ce_length_eq_text (s : CStr) : ce_length (some s) = ((text_of s).length : Int) := by
  simp [ce_length, ce_length_rec_eq, text_of]

theorem deref_text_of (s : CStr) : deref (text_of s) = deref s := by
  cases s with
  | nil => rfl
  | cons d t =>
    by_cases hd : d = NUL
    · simp [text_of, deref, hd]
    · simp [text_of, deref, hd]

theorem text_of_tail (s : CStr) (h : deref s ≠ NUL) : (text_of s).tail = text_of s.tail := by
  cases s with
  | nil => rfl
  | cons d t =>
    have hd : d ≠ NUL := h
    simp [text_of, hd]

/-- The scan sees its three texts only up to their terminators. -/
theorem ce_rfind_rec_text (b : CStr) : ∀ (s sub : CStr) (i m : Int),
    ce_rfind_rec b s sub i m = ce_rfind_rec (text_of b) (text_of s) (text_of sub) i m := by
  intro s
  induction s with
  | nil => intro sub i m; simp [text_of, ce_rfind_rec]
  | cons c t ih =>
    intro sub i m
    by_cases hc : c = NUL
    · simp [text_of, ce_rfind_rec, hc]
    · have e : text_of (c :: t) = c :: text_of t := by simp [text_of, hc]
      rw [e]
      simp only [ce_rfind_rec, deref_text_of, hc, false_or]
      by_cases hs : deref sub = NUL
      · simp [hs]
      · simp only [hs, if_false]
        by_cases hcs : c = deref sub
        · simp only [hcs, if_true]
          rw [ih, text_of_tail sub hs]
        · simp only [hcs, if_false]
          rw [ih]

/-- What the scan returns, on texts without terminators inside: with `done` the part of the
needle matched so far and `pre` the part of the text read so far, a result that leaves room for
the needle is the start of an occurrence. -/
theorem ce_rfind_rec_occurs (B : CStr) (hB : ∀ c ∈ B, c ≠ NUL) (hB0 : B ≠ []) :
    ∀ (str pre done sub : CStr) (m : Int), (∀ c ∈ str, c ≠ NUL) → B = done ++ sub →
      ((done = [] ∧ (m = -1 ∨ (m = 0 ∧ pre = []))) ∨
        (done ≠ [] ∧ ∃ u : CStr, pre = u ++ done ∧ m = (u.length : Int))) →
      0 ≤ ce_rfind_rec B str sub pre.length m →
      ce_rfind_rec B str sub pre.length m + B.length ≤ ((pre ++ str).length : Int) →
      occurs_at (pre ++ str) B (ce_rfind_rec B str sub pre.length m).toNat := by
  intro str
  induction str with
  | nil =>
    intro pre done sub m _ hsplit hinv h0 hroom
    simp only [ce_rfind_rec, List.append_nil] at h0 hroom ⊢
    rcases hinv with ⟨_, hm | ⟨_, hp⟩⟩ | ⟨hd, u, hpre, hm⟩
    · omega
    · subst hp
      have : 0 < B.length := List.length_pos.2 hB0
      simp at hroom
      omega
    · subst hpre hm
      have hlen : B.length = done.length + sub.length := by rw [hsplit]; simp
      have hsub : sub = [] := by
        apply List.eq_nil_of_length_eq_zero
        simp only [List.length_append] at hroom
        push_cast at hroom
        omega
      subst hsub
      simp only [List.append_nil] at hsplit
      subst hsplit
      simp [occurs_at]
  | cons c t ih =>
    intro pre done sub m hstr hsplit hinv h0 hroom
    have hc : c ≠ NUL := hstr c (List.mem_cons_self _ _)
    have ht : ∀ d ∈ t, d ≠ NUL := fun d hd => hstr d (List.mem_cons_of_mem _ hd)
    have hpt : pre ++ c :: t = (pre ++ [c]) ++ t := by simp
    have hlen1 : ((pre ++ [c]).length : Int) = (pre.length : Int) + 1 := by simp
    cases sub with
    | nil =>
      simp only [ce_rfind_rec, deref, List.headD_nil, or_true, if_true] at h0 hroom ⊢
      simp only [List.append_nil] at hsplit
      rcases hinv with ⟨hd, _⟩ | ⟨_, u, hpre, hm⟩
      · exact absurd (hsplit.trans hd) hB0
      · subst hpre hm hsplit
        simp [occurs_at]
    | cons d sub1 =>
      have hd : d ≠ NUL := hB d (by rw [hsplit]; simp)
      simp only [ce_rfind_rec, deref, List.headD_cons, hc, hd, or_self, if_false,
        List.tail_cons] at h0 hroom ⊢
      by_cases hcd : c = d
      · subst hcd
        simp only [if_true] at h0 hroom ⊢
        rw [← hlen1] at h0 hroom ⊢
        rw [hpt] at hroom ⊢
        have hsplit1 : B = (done ++ [c]) ++ sub1 := by rw [hsplit]; simp
        refine ih (pre ++ [c]) (done ++ [c]) sub1 _ ht hsplit1 ?_ h0 hroom
        right
        refine ⟨by simp, ?_⟩
        rcases hinv with ⟨hd0, hm | ⟨hm, hp⟩⟩ | ⟨_, u, hpre, hm⟩
        · subst hd0 hm
          exact ⟨pre, by simp, by simp⟩
        · subst hd0 hm hp
          exact ⟨[], by simp, by simp⟩
        · subst hpre hm
          refine ⟨u, by simp, ?_⟩
          have : (0 : Int) ≤ (u.length : Int) := Int.natCast_nonneg _
          simp [this]
      · simp only [hcd, if_false] at h0 hroom ⊢
        rw [← hlen1] at h0 hroom ⊢
        rw [hpt] at hroom ⊢
        exact ih (pre ++ [c]) [] B (-1) ht (by simp) (Or.inl ⟨rfl, Or.inl rfl⟩) h0 hroom

/-- A result of `ce_rfind` that leaves room for the needle is the start of an occurrence. -/
theorem ce_rfind_occurs (text needle : CStr) (hne : deref needle ≠ NUL)
    (h0 : 0 ≤ ce_rfind (some text) (some needle))
    (hroom : ce_rfind (some text) (some needle) + ce_length (some needle)
      ≤ ce_length (some text)) :
    occurs_at (text_of text) (text_of needle) (ce_rfind (some text) (some needle)).toNat := by
  have hB0 : text_of needle ≠ [] := by
    intro h
    apply hne
    rw [← deref_text_of, h]
    rfl
  rw [ce_length_eq_text, ce_length_eq_text] at hroom
  simp only [ce_rfind] at h0 hroom ⊢
  rw [ce_rfind_rec_text] at h0 hroom ⊢
  have key := ce_rfind_rec_occurs (text_of needle) (text_of_no_nul needle) hB0
    (text_of text) [] [] (text_of needle) 0 (text_of_no_nul text) (by simp)
    (Or.inl ⟨rfl, Or.inr ⟨rfl, rfl⟩⟩)
  simpa using key (by simpa using h0) (by simpa using hroom)

/-! ## Lemmas for the count, the classifier and the cache claims -/

/-- The descent returns the greatest candidate in `2..j+1` classified valid, 1 when none is. -/
theorem num_values_rec_str_greatest (E : EnumType) (j : Nat) :
    (∃ M : Nat, 2 ≤ M ∧ M ≤ j + 1 ∧ ce_is_in_range E M = true ∧
        (∀ k, M < k → k ≤ j + 1 → ce_is_in_range E k = false) ∧
        num_values_rec_str E j = (M : Int)) ∨
      ((∀ k, 2 ≤ k → k ≤ j + 1 → ce_is_in_range E k = false) ∧ num_values_rec_str E j = 1) := by
  induction j with
  | zero => exact Or.inr ⟨fun k h2 h1 => by omega, rfl⟩
  | succ j ih =>
    by_cases h : ce_is_in_range E (j + 2) = true
    · left
      refine ⟨j + 2, by omega, by omega, h, fun k h1 h2 => by omega, ?_⟩
      simp [num_values_rec_str, h]
    · have hf : ce_is_in_range E (j + 2) = false := by simpa using h
      have hrec : num_values_rec_str E (j + 1) = num_values_rec_str E j := by
        simp [num_values_rec_str, hf]
      rcases ih with ⟨M, h2, hM, hv, habove, hr⟩ | ⟨hnone, hr⟩
      · left
        refine ⟨M, h2, by omega, hv, ?_, by rw [hrec, hr]⟩
        intro k hk1 hk2
        by_cases hk : k = j + 2
        · rw [hk]; exact hf
        · exact habove k hk1 (by omega)
      · right
        refine ⟨?_, by rw [hrec, hr]⟩
        intro k hk1 hk2
        by_cases hk : k = j + 2
        · rw [hk]; exact hf
        · exact hnone k hk1 (by omega)

/-- The descent looks at the candidates `2..j+1` only. -/
theorem num_values_rec_str_congr (E E2 : EnumType) (j : Nat)
    (h : ∀ k, 2 ≤ k → k ≤ j + 1 → ce_is_in_range E2 k = ce_is_in_range E k) :
    num_values_rec_str E2 j = num_values_rec_str E j := by
  induction j with
  | zero => rfl
  | succ j ih =>
    simp only [num_values_rec_str]
    rw [h (j + 2) (by omega) (by omega), ih (fun k h2 hk => h k h2 (by omega))]

theorem is_in_range_char_telltale (p : Predef) (c : Char)
    (hfam : p.clang = true ∨ p.gnuc = true) :
    is_in_range_char p c = false ↔ telltale p c := by
  have hdigit : (decide ('0' ≤ c) && decide (c ≤ '9')) = c.isDigit := by
    simp only [Char.isDigit]
    rfl
  by_cases hcl : p.clang = true
  · rw [is_in_range_char, if_pos hcl, hdigit]
    unfold telltale
    constructor
    · intro h
      exact Or.inl ⟨hcl, by simpa using h⟩
    · rintro (⟨_, h⟩ | ⟨h, _⟩)
      · simp [h]
      · rw [hcl] at h
        exact absurd h (by simp)
  · have hcl2 : p.clang = false := by simpa using hcl
    have hg : p.gnuc = true := by
      rcases hfam with h | h
      · exact absurd h hcl
      · exact h
    rw [is_in_range_char, if_neg hcl, if_pos hg]
    unfold telltale
    constructor
    · intro h
      have h1 : '(' = c := by simpa using h
      exact Or.inr ⟨hcl2, hg, h1.symm⟩
    · rintro (⟨h, _⟩ | ⟨_, _, h⟩)
      · exact absurd h hcl
      · subst h
        rfl

/-- A call with a negative ordinal reads the vector before its start. -/
theorem name_string_negative (E : EnumType) (st : NameCache) (k : Int) (hk : k < 0) :
    name_string E st k = none := by
  have hb := ce_num_values_bounds E
  simp only [name_string]
  rw [if_neg (by omega)]
  split
  · rfl
  · simp [hk]

/-- A call on a populated cache that returns leaves the static variables as they were. -/
theorem name_string_keeps_populated (E : EnumType) (st st1 : NameCache) (k : Int)
    (s : List Char) (hfc : st.first_call = false) (hcall : name_string E st k = some (s, st1)) :
    st1 = st := by
  simp only [name_string, hfc] at hcall
  split at hcall
  · simp only [Option.some.injEq, Prod.mk.injEq] at hcall
    exact hcall.2.symm
  · simp only [Bool.false_eq_true, if_false] at hcall
    split at hcall
    · exact absurd hcall (by simp)
    · cases hget : st.strings_vector[k.toNat]? with
      | none => simp [hget] at hcall
      | some x =>
        simp only [hget, Option.map_some', Option.some.injEq, Prod.mk.injEq] at hcall
        exact hcall.2.symm

/-- A reachable state in which `first_call` is cleared is populated. -/
theorem reachable_populated (E : EnumType) (st : NameCache) (hst : Reachable E st)
    (hfc : st.first_call = false) : populated E st := by
  rcases reachable_cases E st hst with h | h
  · subst h
    simp [NameCache.init] at hfc
  · exact h

set_option maxRecDepth 100000 in
theorem main_value_string (j : Nat) (hj : j < 5) :
    value_string_of (ce_value_name_from_int (gnu_enum main_names (gnu_in_bounds main_names)) j)
      = main_cache.strings_vector[j]? := by
  rw [gnu_value_name_from_int]
  interval_cases j <;> decide

/-- The populated cache of `EnumT` of `main.cpp` is the state after the first call. -/
theorem main_cache_reachable :
    Reachable (gnu_enum main_names (gnu_in_bounds main_names)) main_cache := by
  obtain ⟨s, st1, h1, hpop, _⟩ := name_string_init
    (gnu_enum main_names (gnu_in_bounds main_names)) 0
    (gnu_nonempty_texts main_names (gnu_in_bounds main_names)) (le_refl _)
    (by rw [← num_of_values, main_num_of_values]; decide)
  have hN : (ce_num_values (gnu_enum main_names (gnu_in_bounds main_names))).toNat = 5 := by
    rw [← num_of_values, main_num_of_values]
    rfl
  have heq : st1 = main_cache := by
    obtain ⟨sv, fc⟩ := st1
    obtain ⟨hfc, hlen, hget⟩ := hpop
    simp only at hfc hlen hget
    rw [hN] at hlen hget
    subst hfc
    simp only [main_cache, NameCache.mk.injEq, and_true]
    apply List.ext_getElem?
    intro j
    by_cases hj : j < 5
    · rw [hget j hj, main_value_string j hj]
      rfl
    · rw [List.getElem?_eq_none (by omega), List.getElem?_eq_none (by simp; omega)]
  rw [heq] at h1
  exact Reachable.call _ _ 0 s Reachable.init h1

/-! ## Lemmas for the offset of `ce_string_after` and for the type with 256 values -/

theorem ce_rfind_rec_ge (b : CStr) : ∀ (s sub : CStr) (i m : Int), 0 ≤ i → -1 ≤ m →
    -1 ≤ ce_rfind_rec b s sub i m := by
  intro s
  induction s with
  | nil => intro sub i m _ hm; simpa [ce_rfind_rec] using hm
  | cons c t ih =>
    intro sub i m hi hm
    simp only [ce_rfind_rec]
    split
    · exact hm
    · split
      · exact ih _ _ _ (by omega) (by split <;> omega)
      · exact ih _ _ _ (by omega) (le_refl _)

/-- How the scan can end, on texts without terminators inside: not found; on an empty text
with the index it started with; after a whole needle; or at the end of the text inside a
needle matched in part. -/
theorem ce_rfind_rec_result (B : CStr) (hB : ∀ c ∈ B, c ≠ NUL) (hB0 : B ≠ []) :
    ∀ (str pre done sub : CStr) (m : Int), (∀ c ∈ str, c ≠ NUL) → B = done ++ sub →
      ((done = [] ∧ (m = -1 ∨ (m = 0 ∧ pre = []))) ∨
        (done ≠ [] ∧ ∃ u : CStr, pre = u ++ done ∧ m = (u.length : Int))) →
      ce_rfind_rec B str sub pre.length m = -1 ∨
      (pre ++ str = [] ∧ ce_rfind_rec B str sub pre.length m = 0) ∨
      (0 ≤ ce_rfind_rec B str sub pre.length m ∧
        ce_rfind_rec B str sub pre.length m + B.length ≤ ((pre ++ str).length : Int)) ∨
      (∃ u d s : CStr, d ≠ [] ∧ s ≠ [] ∧ B = d ++ s ∧ pre ++ str = u ++ d ∧
        ce_rfind_rec B str sub pre.length m = (u.length : Int)) := by
  intro str
  induction str with
  | nil =>
    intro pre done sub m _ hsplit hinv
    simp only [ce_rfind_rec, List.append_nil]
    rcases hinv with ⟨_, hm | ⟨hm, hp⟩⟩ | ⟨hd, u, hpre, hm⟩
    · exact Or.inl hm
    · exact Or.inr (Or.inl ⟨hp, hm⟩)
    · by_cases hs : sub = []
      · subst hs
        simp only [List.append_nil] at hsplit
        subst hsplit hpre hm
        refine Or.inr (Or.inr (Or.inl ⟨Int.natCast_nonneg _, ?_⟩))
        simp
      · exact Or.inr (Or.inr (Or.inr ⟨u, done, sub, hd, hs, hsplit, hpre, hm⟩))
  | cons c t ih =>
    intro pre done sub m hstr hsplit hinv
    have hc : c ≠ NUL := hstr c (List.mem_cons_self _ _)
    have ht : ∀ d ∈ t, d ≠ NUL := fun d hd => hstr d (List.mem_cons_of_mem _ hd)
    have hpt : pre ++ c :: t = (pre ++ [c]) ++ t := by simp
    have hlen1 : ((pre ++ [c]).length : Int) = (pre.length : Int) + 1 := by simp
    cases sub with
    | nil =>
      simp only [ce_rfind_rec, deref, List.headD_nil, or_true, if_true]
      simp only [List.append_nil] at hsplit
      rcases hinv with ⟨hd, _⟩ | ⟨_, u, hpre, hm⟩
      · exact absurd (hsplit.trans hd) hB0
      · subst hpre hm hsplit
        refine Or.inr (Or.inr (Or.inl ⟨Int.natCast_nonneg _, ?_⟩))
        simp only [List.length_append, List.length_cons]
        push_cast
        omega
    | cons d sub1 =>
      have hd : d ≠ NUL := hB d (by rw [hsplit]; simp)
      simp only [ce_rfind_rec, deref, List.headD_cons, hc, hd, or_self, if_false,
        List.tail_cons]
      by_cases hcd : c = d
      · subst hcd
        simp only [if_true]
        rw [← hlen1, hpt]
        have hsplit1 : B = (done ++ [c]) ++ sub1 := by rw [hsplit]; simp
        refine ih (pre ++ [c]) (done ++ [c]) sub1 _ ht hsplit1 ?_
        right
        refine ⟨by simp, ?_⟩
        rcases hinv with ⟨hd0, hm | ⟨hm, hp⟩⟩ | ⟨_, u, hpre, hm⟩
        · subst hd0 hm
          exact ⟨pre, by simp, by simp⟩
        · subst hd0 hm hp
          exact ⟨[], by simp, by simp⟩
        · subst hpre hm
          refine ⟨u, by simp, ?_⟩
          have : (0 : Int) ≤ (u.length : Int) := Int.natCast_nonneg _
          simp [this]
      · simp only [hcd, if_false]
        rw [← hlen1, hpt]
        exact ih (pre ++ [c]) [] B (-1) ht (by simp) (Or.inl ⟨rfl, Or.inl rfl⟩)

/-- The offset stays inside a text whose last character is not in the needle, or occurs
nowhere else in the text (texts without terminators inside). -/
theorem ce_rfind_rec_offset (T B : CStr) (hT : ∀ c ∈ T, c ≠ NUL) (hB : ∀ c ∈ B, c ≠ NUL)
    (hB0 : B ≠ []) (hocc : ∃ i, occurs_at T B i)
    (hlast : ∀ c, T.getLast? = some c → c ∉ B ∨ c ∉ T.dropLast) :
    0 ≤ ce_rfind_rec B T B 0 0 + B.length ∧
      ce_rfind_rec B T B 0 0 + B.length ≤ (T.length : Int) := by
  obtain ⟨i, hi⟩ := hocc
  have hbound := occurs_at_bound T B i hB0 hi
  have hpos : 0 < B.length := List.length_pos.2 hB0
  have hge := ce_rfind_rec_ge B T B 0 0 (le_refl _) (by omega)
  have hres := ce_rfind_rec_result B hB hB0 T [] [] B 0 hT (by simp)
    (Or.inl ⟨rfl, Or.inr ⟨rfl, rfl⟩⟩)
  simp only [List.length_nil, Nat.cast_zero, List.nil_append] at hres
  refine ⟨by omega, ?_⟩
  rcases hres with h | ⟨hnil, _⟩ | ⟨_, h⟩ | ⟨u, d, s, hd, hs, hsplit, hTu, _⟩
  · rw [h]
    omega
  · subst hnil
    simp only [List.length_nil] at hbound
    omega
  · exact h
  · exfalso
    obtain ⟨d1, c, hdc⟩ : ∃ d1 c, d = d1 ++ [c] :=
      ⟨d.dropLast, d.getLast hd, (List.dropLast_append_getLast hd).symm⟩
    have hTlast : T.getLast? = some c := by
      rw [hTu, hdc, ← List.append_assoc]
      simp
    have hcB : c ∈ B := by
      rw [hsplit, hdc]
      simp
    obtain ⟨rest, hrest⟩ := hi
    have hTi : T = (T.take i ++ d1 ++ [c]) ++ (s ++ rest) := by
      conv_lhs => rw [← List.take_append_drop i T, ← hrest, hsplit, hdc]
      simp
    have hne : s ++ rest ≠ [] := by simp [hs]
    have hcT : c ∈ T.dropLast := by
      rw [hTi, List.dropLast_append_of_ne_nil _ hne]
      simp
    rcases hlast c hTlast with h | h
    · exact h hcB
    · exact h hcT

/-- The offset `ce_string_after` adds, for a signature whose last character is not in the
marker or occurs nowhere else in it. -/
theorem ce_string_after_offset (sig marker : CStr) (hne : deref marker ≠ NUL)
    (hocc : ∃ i, occurs_at (text_of sig) (text_of marker) i)
    (hfresh : final_char_fresh sig marker) :
    0 ≤ ce_rfind (some sig) (some marker) + ce_length (some marker) ∧
      ce_rfind (some sig) (some marker) + ce_length (some marker) ≤ ce_length (some sig) := by
  have hB0 : text_of marker ≠ [] := by
    intro h
    apply hne
    rw [← deref_text_of, h]
    rfl
  rw [ce_length_eq_text, ce_length_eq_text]
  simp only [ce_rfind]
  rw [ce_rfind_rec_text]
  exact ce_rfind_rec_offset (text_of sig) (text_of marker) (text_of_no_nul sig)
    (text_of_no_nul marker) hB0 hocc hfresh

theorem full_is_in_range (h) (k : Nat) :
    ce_is_in_range (gnu_enum_uchar full_names h) k = decide (k < 256) := by
  have e : ce_is_in_range (gnu_enum_uchar full_names h) k
      = ce_is_in_range (gnu_enum full_names h) k := rfl
  rw [e, gnu_is_in_range]
  by_cases hk : k < 256
  · simp [full_names, hk]
  · have hnone : full_names[k]? = none := by
      apply List.getElem?_eq_none
      simp only [full_names, List.length_map, List.length_range]
      omega
    simp [hnone, hk]

theorem full_num_of_values (h) : num_of_values (gnu_enum_uchar full_names h) = 256 :=
  ce_num_values_consecutive _ 256 (by decide) (by decide) (full_is_in_range h)

set_option maxRecDepth 100000 in
/-- Under g++ the marker of `ce_type_name_str` is not in the type signature of `main.cpp`
(it reads `[with E = `), and `type_name_string` returns the signature from its fifth
character on, without the closing bracket. -/
theorem gnu_type_name_string :
    type_name_string gnu_type_sig = some
      "texpr const char* enums_tool::implementation::ce_raw_pf_str() [with E = main()::EnumT".toList := by
  decide

/-- Why the last character matters: in the text `aabca` the needle `abc` occurs at index 1, the
scan ends inside a partial match and the offset is 4 + 3 = 7, past the length 5. No signature
text ends so: the last character `a` of this text is in the needle and occurs elsewhere in
the text. -/
theorem offset_past_terminator_example :
    occurs_at "aabca".toList "abc".toList 1 ∧
    ce_rfind (some "aabca".toList) (some "abc".toList) + ce_length (some "abc".toList) = 7 ∧
    ce_length (some "aabca".toList) = 5 ∧
    ce_string_after "aabca".toList "abc".toList = none := by
  decide

/-! ## The claims -/

/-- C1, failing input. For a type with the single value `only` the ordinals classified valid
are exactly `0..N-1` with `N = 1`, yet `num_of_values` returns 2: the descent of
`num_values_rec_str` ends at the specialization for `k = 1`, which returns 1 without looking at
the candidates 1 and 0. -/
theorem C1_single_value_counts_two :
    (∀ k, ce_is_in_range (gnu_enum single_names (gnu_in_bounds single_names)) k
        = decide (k < 1)) ∧
    num_of_values (gnu_enum single_names (gnu_in_bounds single_names)) = 2 :=
  ⟨single_is_in_range _, single_num_of_values _⟩

/-- C2, counterexample. In `enum { a = 0, c = 2 }` the ordinal 1 lies below `num_of_values`
(which is 3), and `name_string` returns for it the out-of-range text, which is not the value
text of ordinal 1 cleaned as the claim says. The same happens at ordinal 1 of the type with the
single value `only`, whose `num_of_values` is 2. -/
theorem C2_counterexample_invalid_ordinal :
    ((1 : Int) < num_of_values (gnu_enum holed_names (gnu_in_bounds holed_names)) ∧
      ∃ st1, name_string (gnu_enum holed_names (gnu_in_bounds holed_names))
          (NameCache.init (gnu_enum holed_names (gnu_in_bounds holed_names))) 1
          = some ("** out of range **".toList, st1) ∧
        ¬ scope_stripped
          (text_of (ce_value_name_from_enum
            (gnu_enum holed_names (gnu_in_bounds holed_names)) 1)).dropLast
          "** out of range **".toList) ∧
    ((1 : Int) < num_of_values (gnu_enum single_names (gnu_in_bounds single_names)) ∧
      ∃ st1, name_string (gnu_enum single_names (gnu_in_bounds single_names))
          (NameCache.init (gnu_enum single_names (gnu_in_bounds single_names))) 1
          = some ("** out of range **".toList, st1) ∧
        ¬ scope_stripped
          (text_of (ce_value_name_from_enum
            (gnu_enum single_names (gnu_in_bounds single_names)) 1)).dropLast
          "** out of range **".toList) := by
  refine ⟨⟨by rw [holed_num_of_values]; decide, ?_⟩, ⟨by rw [single_num_of_values]; decide, ?_⟩⟩
  · obtain ⟨st1, h1⟩ := gnu_name_string_invalid holed_names 1
      (by rw [← num_of_values, holed_num_of_values]; decide) (by decide)
    refine ⟨st1, h1, ?_⟩
    intro hs
    have hlen := scope_stripped_length _ _ hs
    rw [gnu_value_name] at hlen
    revert hlen
    decide
  · obtain ⟨st1, h1⟩ := gnu_name_string_invalid single_names 1
      (by rw [← num_of_values, single_num_of_values]; decide) (by decide)
    refine ⟨st1, h1, ?_⟩
    intro hs
    have hlen := scope_stripped_length _ _ hs
    rw [gnu_value_name] at hlen
    revert hlen
    decide

/-- C2, amended. In every reachable state of the cache and for every ordinal `k` with
`0 ≤ k < num_of_values` that `ce_is_in_range` classifies as valid: whatever `name_string`
returns is the extracted value text of `k` without its final character and, when `::` occurs in
that, without everything up to and including the last `::`; and the call does return when no
text read by the loop is empty. -/
theorem C2_name_string_valid_ordinal (E : EnumType) (st : NameCache) (k : Int)
    (hst : Reachable E st) (h0 : 0 ≤ k) (hN : k < num_of_values E)
    (hvalid : ce_is_in_range E k.toNat = true) :
    (∀ s st1, name_string E st k = some (s, st1) →
      scope_stripped (text_of (ce_value_name_from_enum E k.toNat)).dropLast s) ∧
    (nonempty_texts E → ∃ s st1, name_string E st k = some (s, st1)) := by
  constructor
  · intro s st1 hcall
    obtain ⟨_, h3⟩ := name_string_sound E st st1 k s hst h0 hN hcall
    rw [ce_value_name_from_int, if_pos hvalid] at h3
    exact value_string_of_spec _ s h3
  · intro hne
    exact name_string_total E st k hst hne h0 hN

/-- C2, witness: the first call for ordinal 0 of `EnumT` of `main.cpp`. -/
theorem C2_name_string_valid_ordinal_witness :
    Reachable (gnu_enum main_names (gnu_in_bounds main_names))
      (NameCache.init (gnu_enum main_names (gnu_in_bounds main_names))) ∧
    (0 : Int) < num_of_values (gnu_enum main_names (gnu_in_bounds main_names)) ∧
    ce_is_in_range (gnu_enum main_names (gnu_in_bounds main_names)) 0 = true ∧
    nonempty_texts (gnu_enum main_names (gnu_in_bounds main_names)) ∧
    ((∀ s st1, name_string (gnu_enum main_names (gnu_in_bounds main_names))
        (NameCache.init (gnu_enum main_names (gnu_in_bounds main_names))) 0 = some (s, st1) →
      scope_stripped (text_of (ce_value_name_from_enum
        (gnu_enum main_names (gnu_in_bounds main_names)) 0)).dropLast s) ∧
    (nonempty_texts (gnu_enum main_names (gnu_in_bounds main_names)) →
      ∃ s st1, name_string (gnu_enum main_names (gnu_in_bounds main_names))
        (NameCache.init (gnu_enum main_names (gnu_in_bounds main_names))) 0 = some (s, st1))) :=
  ⟨Reachable.init, by rw [main_num_of_values]; decide, by rw [main_is_in_range]; rfl,
    gnu_nonempty_texts _ _,
    C2_name_string_valid_ordinal _ _ 0 Reachable.init (le_refl _)
      (by rw [main_num_of_values]; decide) (by rw [main_is_in_range]; rfl)⟩

/-- C3. For every integer `k` at or above `num_of_values`, in whatever state the cache is,
`name_string` returns exactly the text `** out of range **` and leaves the cache as it was. -/
theorem C3_out_of_range_text (E : EnumType) (st : NameCache) (k : Int)
    (h : num_of_values E ≤ k) :
    name_string E st k = some ("** out of range **".toList, st) :=
  name_string_out_of_range E st k h

/-- C3, witness: ordinal 5 of `EnumT` of `main.cpp`. -/
theorem C3_out_of_range_text_witness :
    num_of_values (gnu_enum main_names (gnu_in_bounds main_names)) ≤ 5 ∧
    name_string (gnu_enum main_names (gnu_in_bounds main_names))
      (NameCache.init (gnu_enum main_names (gnu_in_bounds main_names))) 5
      = some ("** out of range **".toList,
          NameCache.init (gnu_enum main_names (gnu_in_bounds main_names))) :=
  ⟨by rw [main_num_of_values], C3_out_of_range_text _ _ 5 (by rw [main_num_of_values])⟩

/-- C4, failing input. In `abab` the needle `ab` occurs at index 2 and nowhere after it, and
`ce_rfind` returns 0, the start of the first occurrence: the scan returns as soon as the needle
is exhausted. -/
theorem C4_rfind_returns_first_occurrence :
    occurs_at "abab".toList "ab".toList 2 ∧
    (∀ j, 2 < j → ¬ occurs_at "abab".toList "ab".toList j) ∧
    ce_rfind (some "abab".toList) (some "ab".toList) = 0 :=
  ⟨by decide,
    fun j hj => not_occurs_at_beyond _ _ j (by decide)
      (by
        have h4 : "abab".toList.length = 4 := by decide
        have h2 : "ab".toList.length = 2 := by decide
        omega),
    by decide⟩

/-- C5, failing input. The needle `ab` occurs nowhere in the text `xa`, which ends with the
proper prefix `a` of the needle, and `ce_rfind` returns 1, not -1. -/
theorem C5_rfind_partial_match_at_end :
    (∀ j, ¬ occurs_at "xa".toList "ab".toList j) ∧
    ce_rfind (some "xa".toList) (some "ab".toList) = 1 := by
  refine ⟨?_, by decide⟩
  intro j
  rcases j with _ | j
  · decide
  · exact not_occurs_at_beyond _ _ _ (by decide) (by simp)

set_option maxRecDepth 100000 in
/-- C6, failing input. In the signatures g++ gives for `EnumT` of `main.cpp` the marker `::`
occurs three times (type form) and four times (type-and-value form of `cero0`); the text after
its last occurrence is `EnumT]`, respectively `cero0]`. `ce_string_after` returns in both forms
the text after the first occurrence, which starts with `implementation::`. -/
theorem C6_string_after_first_occurrence :
    (occurs_at gnu_type_sig "::".toList 82 ∧
      (∀ j, 82 < j → ¬ occurs_at gnu_type_sig "::".toList j) ∧
      gnu_type_sig.drop (82 + "::".toList.length) = "EnumT]".toList ∧
      ce_string_after gnu_type_sig "::".toList
        = some "implementation::ce_raw_pf_str() [with E = main()::EnumT]".toList) ∧
    (occurs_at (gnu_value_sig main_names 0) "::".toList 107 ∧
      (∀ j, 107 < j → ¬ occurs_at (gnu_value_sig main_names 0) "::".toList j) ∧
      (gnu_value_sig main_names 0).drop (107 + "::".toList.length) = "cero0]".toList ∧
      ce_string_after (gnu_value_sig main_names 0) "::".toList = some
        "implementation::ce_raw_pf_str() [with E = main()::EnumT; E value = main()::cero0]".toList) := by
  refine ⟨⟨by decide, ?_, by decide, by decide⟩, ⟨by decide, ?_, by decide, by decide⟩⟩
  · intro j hj h
    have hb := occurs_at_bound _ _ j (by decide) h
    have h90 : gnu_type_sig.length = 90 := by decide
    have h2 : "::".toList.length = 2 := by decide
    rw [h90, h2] at hb
    have hj2 : j ≤ 88 := by omega
    interval_cases j <;> revert h <;> decide
  · intro j hj h
    have hb := occurs_at_bound _ _ j (by decide) h
    have h115 : (gnu_value_sig main_names 0).length = 115 := by decide
    have h2 : "::".toList.length = 2 := by decide
    rw [h115, h2] at hb
    have hj2 : j ≤ 113 := by omega
    interval_cases j <;> revert h <;> decide

set_option maxRecDepth 100000 in
/-- C7, failing input. For the signature clang++ gives for an enumerated type `EnumT` of a
namespace `ns`, whose text after the marker `[E = ` is the scope-qualified spelling `ns::EnumT`
and a closing bracket, `type_name_string` returns `ns::EnumT`, in which `::` occurs, not the
bare `EnumT`: it drops the bracket and has no step that removes the text up to the last `::`,
the step `name_string` has. -/
theorem C7_type_name_scope_kept :
    type_name_string
        "const char *enums_tool::implementation::ce_raw_pf_str() [E = ns::EnumT]".toList
      = some "ns::EnumT".toList ∧
    occurs_at "ns::EnumT".toList "::".toList 2 ∧ "ns::EnumT".toList ≠ "EnumT".toList :=
  ⟨type_name_string_fresh
      "const char *enums_tool::implementation::ce_raw_pf_str() ".toList "ns::EnumT".toList
      (by decide) (by decide),
    by decide, by decide⟩

/-- C8. In every reachable state of the cache and for every integer `k ≥ 0`: when a call
`name_string(k)` returns a string, the call that follows it returns the same string, also
when the first of the two is the call that populates the cache; and both calls do return when
no text read by the loop is empty. -/
theorem C8_consecutive_calls_agree (E : EnumType) (st : NameCache) (k : Int)
    (hst : Reachable E st) (h0 : 0 ≤ k) :
    (∀ s st1, name_string E st k = some (s, st1) →
      ∃ st2, name_string E st1 k = some (s, st2)) ∧
    (nonempty_texts E →
      ∃ s st1 st2, name_string E st k = some (s, st1) ∧ name_string E st1 k = some (s, st2)) := by
  have key : ∀ s st1, name_string E st k = some (s, st1) →
      ∃ st2, name_string E st1 k = some (s, st2) := by
    intro s st1 hcall
    by_cases hN : ce_num_values E ≤ k
    · have h := name_string_out_of_range E st k hN
      rw [h] at hcall
      simp only [Option.some.injEq, Prod.mk.injEq] at hcall
      rw [← hcall.1, ← hcall.2]
      exact ⟨st, h⟩
    · obtain ⟨hpop, h3⟩ := name_string_sound E st st1 k s hst h0 (by omega) hcall
      obtain ⟨s2, h4, h5⟩ := name_string_populated E st1 k hpop h0 (by omega)
      rw [h3] at h5
      rw [← Option.some.inj h5] at h4
      exact ⟨st1, h4⟩
  refine ⟨key, ?_⟩
  intro hne
  have hret : ∃ s st1, name_string E st k = some (s, st1) := by
    by_cases hN : ce_num_values E ≤ k
    · exact ⟨out_of_range, st, name_string_out_of_range E st k hN⟩
    · exact name_string_total E st k hst hne h0 (by omega)
  obtain ⟨s, st1, h1⟩ := hret
  obtain ⟨st2, h2⟩ := key s st1 h1
  exact ⟨s, st1, st2, h1, h2⟩

/-- C8, witness: two calls for ordinal 0 of `EnumT` of `main.cpp`, the first one populating
the cache. -/
theorem C8_consecutive_calls_agree_witness :
    Reachable (gnu_enum main_names (gnu_in_bounds main_names))
      (NameCache.init (gnu_enum main_names (gnu_in_bounds main_names))) ∧
    (NameCache.init (gnu_enum main_names (gnu_in_bounds main_names))).first_call = true ∧
    ∃ s st1 st2, name_string (gnu_enum main_names (gnu_in_bounds main_names))
        (NameCache.init (gnu_enum main_names (gnu_in_bounds main_names))) 0 = some (s, st1) ∧
      name_string (gnu_enum main_names (gnu_in_bounds main_names)) st1 0 = some (s, st2) :=
  ⟨Reachable.init, rfl,
    (C8_consecutive_calls_agree _ _ 0 Reachable.init (le_refl _)).2 (gnu_nonempty_texts _ _)⟩

/-- C9, failing input. For the type with the single value `only` (valid ordinals exactly
`0..0`), `last` is the ordinal 1, not 0, and `name_string(last)` returns the text
`** out of range **`. -/
theorem C9_single_value_last_is_out_of_range :
    (∀ k, ce_is_in_range (gnu_enum single_names (gnu_in_bounds single_names)) k
        = decide (k < 1)) ∧
    last (gnu_enum single_names (gnu_in_bounds single_names)) = 1 ∧
    ∃ st1, name_string (gnu_enum single_names (gnu_in_bounds single_names))
        (NameCache.init (gnu_enum single_names (gnu_in_bounds single_names)))
        (last (gnu_enum single_names (gnu_in_bounds single_names)))
      = some ("** out of range **".toList, st1) := by
  have hlast : last (gnu_enum single_names (gnu_in_bounds single_names)) = 1 := by
    rw [last, ← num_of_values, single_num_of_values]
    rfl
  refine ⟨single_is_in_range _, hlast, ?_⟩
  rw [hlast]
  exact gnu_name_string_invalid single_names 1
    (by rw [← num_of_values, single_num_of_values]; decide) (by decide)

/-- C12, failing input. For `EnumT` of `main.cpp` the call `name_string(-1)` has no defined
result, before and after the cache is populated: the test `N <= k` lets a negative `k` pass and
`strings_vector[k]` is read outside the vector; the out-of-range text is not returned. -/
theorem C12_negative_ordinal_reads_outside :
    name_string (gnu_enum main_names (gnu_in_bounds main_names))
      (NameCache.init (gnu_enum main_names (gnu_in_bounds main_names))) (-1) = none ∧
    name_string (gnu_enum main_names (gnu_in_bounds main_names)) main_cache (-1) = none :=
  ⟨name_string_negative _ _ (-1) (by decide), name_string_negative _ _ (-1) (by decide)⟩

/-- C13, failing input. With an empty text, or with an empty needle, `ce_rfind` returns 0, the
match index it starts the scan with, not -1. -/
theorem C13_rfind_empty_argument_returns_zero :
    ce_rfind (some "".toList) (some "ab".toList) = 0 ∧
    ce_rfind (some "ab".toList) (some "".toList) = 0 ∧
    ce_rfind (some "".toList) (some "".toList) = 0 := by
  decide

/-- C14. For every zero-terminated text `ce_length` returns the number of characters before the
first terminator; it returns 0 for the empty text, for a text that starts with the terminator,
and for the null pointer. -/
theorem C14_length_counts_characters (s : CStr) :
    ce_length (some s) = ((text_of s).length : Int) ∧
    ce_length (some []) = 0 ∧ ce_length (some (NUL :: s)) = 0 ∧ ce_length none = 0 :=
  ⟨ce_length_eq_text s, rfl, by simp [ce_length, ce_length_rec], rfl⟩

/-- C15. For every enumerated type, whatever the classification of its candidates,
`num_of_values` is at least 1. -/
theorem C15_num_of_values_positive (E : EnumType) : 1 ≤ num_of_values E := by
  have := ce_num_values_bounds E
  simp only [num_of_values]
  omega

/-- C16. Under the clang family and under the g++ family, for every candidate `k`,
`ce_is_in_range` returns false exactly when the first character of the extracted value text of
`k` is the telltale character of the family (a decimal digit, an opening parenthesis), and true
for every other first character. -/
theorem C16_is_in_range_telltale (E : EnumType) (k : Nat)
    (hfam : E.predef.clang = true ∨ E.predef.gnuc = true) :
    (ce_is_in_range E k = false ↔ telltale E.predef (deref (ce_value_name_from_enum E k))) ∧
    (ce_is_in_range E k = true ↔ ¬ telltale E.predef (deref (ce_value_name_from_enum E k))) := by
  have h := is_in_range_char_telltale E.predef (deref (ce_value_name_from_enum E k)) hfam
  refine ⟨h, ?_⟩
  rw [← h, ce_is_in_range]
  simp

/-- C16, witness: candidate 5 of `EnumT` of `main.cpp` under g++. -/
theorem C16_is_in_range_telltale_witness :
    ((gnu_enum main_names (gnu_in_bounds main_names)).predef.clang = true ∨
      (gnu_enum main_names (gnu_in_bounds main_names)).predef.gnuc = true) ∧
    ((ce_is_in_range (gnu_enum main_names (gnu_in_bounds main_names)) 5 = false ↔
        telltale (gnu_enum main_names (gnu_in_bounds main_names)).predef
          (deref (ce_value_name_from_enum (gnu_enum main_names (gnu_in_bounds main_names)) 5))) ∧
      (ce_is_in_range (gnu_enum main_names (gnu_in_bounds main_names)) 5 = true ↔
        ¬ telltale (gnu_enum main_names (gnu_in_bounds main_names)).predef
          (deref (ce_value_name_from_enum (gnu_enum main_names (gnu_in_bounds main_names)) 5)))) :=
  ⟨Or.inr rfl, C16_is_in_range_telltale _ 5 (Or.inr rfl)⟩

/-- C17. Once a call has populated the cache (`first_call` cleared), every later call
`name_string(k)` with `k ≥ 0` returns and leaves the static variables as they were, populated
and with every stored name unchanged; and no call at all that returns brings `first_call`
back. -/
theorem C17_populated_cache_stays (E : EnumType) (st : NameCache) (k : Int)
    (hst : Reachable E st) (hfc : st.first_call = false) (h0 : 0 ≤ k) :
    (∃ s, name_string E st k = some (s, st)) ∧
    (∀ (k2 : Int) (s : List Char) (st1 : NameCache), name_string E st k2 = some (s, st1) →
      st1.first_call = false ∧ st1.strings_vector = st.strings_vector) := by
  constructor
  · by_cases hN : ce_num_values E ≤ k
    · exact ⟨out_of_range, name_string_out_of_range E st k hN⟩
    · obtain ⟨s, hs, _⟩ := name_string_populated E st k (reachable_populated E st hst hfc) h0
        (by omega)
      exact ⟨s, hs⟩
  · intro k2 s st1 hcall
    rw [name_string_keeps_populated E st st1 k2 s hfc hcall]
    exact ⟨hfc, rfl⟩

/-- C17, witness: a call for ordinal 0 on the populated cache of `EnumT` of `main.cpp`. -/
theorem C17_populated_cache_stays_witness :
    Reachable (gnu_enum main_names (gnu_in_bounds main_names)) main_cache ∧
    main_cache.first_call = false ∧
    ((∃ s, name_string (gnu_enum main_names (gnu_in_bounds main_names)) main_cache 0
        = some (s, main_cache)) ∧
      (∀ (k2 : Int) (s : List Char) (st1 : NameCache),
        name_string (gnu_enum main_names (gnu_in_bounds main_names)) main_cache k2
          = some (s, st1) →
        st1.first_call = false ∧ st1.strings_vector = main_cache.strings_vector)) :=
  ⟨main_cache_reachable, rfl,
    C17_populated_cache_stays _ main_cache 0 main_cache_reachable rfl (le_refl _)⟩

/-- C18. For every classification of the candidates, `ce_num_values` is 1 plus the greatest `k`
in `2..255` that `ce_is_in_range` accepts, and 2 when there is none; so it lies in `2..256`, and
two types whose candidates `2..255` are classified alike have the same count, however their
candidates 0 and 1 are classified. -/
theorem C18_count_from_greatest_valid (E : EnumType) :
    ((∃ M : Nat, 2 ≤ M ∧ M ≤ 255 ∧ ce_is_in_range E M = true ∧
        (∀ k, M < k → k ≤ 255 → ce_is_in_range E k = false) ∧
        ce_num_values E = (M : Int) + 1) ∨
      ((∀ k, 2 ≤ k → k ≤ 255 → ce_is_in_range E k = false) ∧ ce_num_values E = 2)) ∧
    (2 ≤ ce_num_values E ∧ ce_num_values E ≤ 256) ∧
    (∀ E2 : EnumType, (∀ k, 2 ≤ k → k ≤ 255 → ce_is_in_range E2 k = ce_is_in_range E k) →
      ce_num_values E2 = ce_num_values E) := by
  refine ⟨?_, ce_num_values_bounds E, ?_⟩
  · rcases num_values_rec_str_greatest E (max_enums - 1) with
      ⟨M, h2, hM, hv, habove, hr⟩ | ⟨hnone, hr⟩
    · left
      refine ⟨M, h2, hM, hv, habove, ?_⟩
      rw [ce_num_values, hr]
      ring
    · right
      refine ⟨hnone, ?_⟩
      rw [ce_num_values, hr]
      rfl
  · intro E2 h
    rw [ce_num_values, ce_num_values, num_values_rec_str_congr E E2 (max_enums - 1) h]

/-- C19. For every text and every non-empty needle, when `r = ce_rfind(text, needle)` satisfies
`r ≥ 0` and `r + ce_length(needle) ≤ ce_length(text)`, the needle occurs in the text starting at
index `r`. -/
theorem C19_rfind_result_is_occurrence (text needle : CStr) (hne : deref needle ≠ NUL)
    (h0 : 0 ≤ ce_rfind (some text) (some needle))
    (hroom : ce_rfind (some text) (some needle) + ce_length (some needle)
      ≤ ce_length (some text)) :
    occurs_at (text_of text) (text_of needle) (ce_rfind (some text) (some needle)).toNat :=
  ce_rfind_occurs text needle hne h0 hroom

/-- C19, witness: the needle `ab` in the text `xxab`, found at index 2. -/
theorem C19_rfind_result_is_occurrence_witness :
    deref "ab".toList ≠ NUL ∧
    ce_rfind (some "xxab".toList) (some "ab".toList) = 2 ∧
    ce_rfind (some "xxab".toList) (some "ab".toList) + ce_length (some "ab".toList)
      ≤ ce_length (some "xxab".toList) ∧
    occurs_at (text_of "xxab".toList) (text_of "ab".toList)
      (ce_rfind (some "xxab".toList) (some "ab".toList)).toNat :=
  ⟨by decide, by decide, by decide,
    C19_rfind_result_is_occurrence "xxab".toList "ab".toList (by decide) (by decide)
      (by decide)⟩

end enums_tool
